import Mathlib

/-!
Verification of the ranking core of the `gaia` scoring service
(`src/scoring-service/src/algorithm/{models,scoring,utils}.py`).

The Python code is embedded shallowly:

* float scores are modelled as exact rationals (`ℚ`);
* the transcendental operations (`numpy.std`, `math.exp` / `numpy.exp`) and the
  wall clock `datetime.now()` are abstract parameters of the engine
  (`EngineParams`); every theorem holds for every choice of these parameters.
  Branches of the source of the form `std_score > 0` (with
  `std = sqrt(variance)`) are embedded as `0 < variance`, which is equivalent
  over the reals since `sqrt v > 0 ↔ v > 0`;
* in-place mutation of the dataclasses becomes explicit state passing: each
  method that mutates an object is a function returning the updated object;
* Python `dict`s keyed by strings become association lists; insertion-ordered
  iteration of `dict`s is preserved by the list order;
* `datetime` values become rationals (seconds since the epoch); only their
  differences are used by the source;
* `ROOT_SPACE_ID` is imported by the source from `src/constants.py`, which is
  not part of the source tree.  Modelled from the spec: "ROOT_SPACE_ID is a
  deployment-wide identifier string"; it is threaded through as an explicit
  `root_space_id : String` argument.
-/

namespace Gaia

/-- models.py: `VoteType`. -/
inductive VoteType where
  | UPVOTE
  | DOWNVOTE
deriving DecidableEq, Repr

/-- `True` exactly on upvotes; the source compares against the two enum
members, which is the same test. -/
def VoteType.isUp : VoteType → Bool
  | .UPVOTE => true
  | .DOWNVOTE => false

/-- models.py: `User`.  The sets `member_spaces`/`editor_spaces` are modelled
as lists; the source only tests membership and iterates them, and all uses are
order- and multiplicity-insensitive. -/
structure User where
  id : String
  member_spaces : List String := []
  editor_spaces : List String := []
deriving DecidableEq, Repr

/-- models.py: `Vote`. -/
structure Vote where
  user_id : String
  entity_id : String
  space_id : String
  vote_type : VoteType
  timestamp : ℚ := 0
  weight : ℚ := 1
deriving DecidableEq, Repr

/-- models.py: `Perspective`, including the computed fields. -/
structure Perspective where
  id : String
  space_id : String
  entity_id : String
  created_at : ℚ := 0
  version : ℕ := 1
  upvotes : ℕ := 0
  downvotes : ℕ := 0
  raw_score : ℚ := 0
  normalized_score : ℚ := 0
  contestation_score : ℚ := 0
deriving DecidableEq, Repr

/-- models.py: `Entity`, including the computed fields.  The perspectives are
carried inline, as the engine exclusively works with `entity.perspectives`. -/
structure Entity where
  id : String
  created_at : ℚ := 0
  perspective_ids : List String := []
  perspectives : List Perspective := []
  version : ℕ := 1
  upvotes : ℕ := 0
  downvotes : ℕ := 0
  raw_score : ℚ := 0
  normalized_score : ℚ := 0
  contestation_score : ℚ := 0
deriving DecidableEq, Repr

/-- models.py: `Space`, including the computed fields. -/
structure Space where
  id : String
  created_at : ℚ := 0
  parent_space_id : Option String := none
  subspace_ids : List String := []
  distance_to_root : ℕ := 0
  space_score : ℚ := 1
  member_count : ℕ := 0
  entity_count : ℕ := 0
  activity_score : ℚ := 0
deriving DecidableEq, Repr

/-- models.py: `RankingConfig` (field defaults as in the source). -/
structure RankingConfig where
  use_contestation_score : Bool := true
  use_time_decay : Bool := false
  time_decay_factor : ℚ := 1/10
  include_subspace_votes : Bool := false
  use_activity_metrics : Bool := false
  use_distance_weighting : Bool := false
  distance_weight_base : ℚ := 4/5
  max_distance : ℕ := 10
  normalize_scores : Bool := true
  normalization_method : String := "z_score"
  filter_non_members : Bool := true
  require_space_membership : Bool := true
deriving DecidableEq, Repr

/-- Abstract stand-ins for the floating-point transcendentals and the wall
clock used by the source (shallow embedding of `numpy.std`, `math.exp` /
`numpy.exp` and `datetime.now()`).  `pstd l` models `numpy.std` applied to the
score list `l` (the square root of the population variance); `pexp` models the
exponential; `now` models the current time in seconds since the epoch. -/
structure EngineParams where
  pstd : List ℚ → ℚ
  pexp : ℚ → ℚ
  now : ℚ

/-- models.py: `SPACE_SCORE_DECAY_BASE = 0.8`. -/
def SPACE_SCORE_DECAY_BASE : ℚ := 4/5

/-- models.py: `DISCONNECTED_SPACE_DEPTH = 11`. -/
def DISCONNECTED_SPACE_DEPTH : ℕ := 11

/-- models.py: `MAX_SPACE_DEPTH = 10`. -/
def MAX_SPACE_DEPTH : ℕ := 10

/-! ### utils.py — the distance oracle -/

/-- `adjacency[k]` with default `[]` (Python reads only existing keys, but the
default form is convenient and agrees on every key the source reads). -/
def alGet (al : List (String × List String)) (k : String) : List String :=
  match List.lookup k al with
  | some l => l
  | none => []

/-- `adjacency[k].append(v)`, creating the key when absent (the source creates
absent keys with `[]` immediately before appending). -/
def alAppend (al : List (String × List String)) (k : String) (v : String) :
    List (String × List String) :=
  if (List.lookup k al).isSome then
    al.map (fun kv => if kv.1 == k then (kv.1, kv.2 ++ [v]) else kv)
  else
    al ++ [(k, [v])]

/-- `if k not in adjacency: adjacency[k] = []`. -/
def ensureKey (al : List (String × List String)) (k : String) :
    List (String × List String) :=
  if (List.lookup k al).isSome then al else al ++ [(k, [])]

/-- One iteration of the adjacency-building loop of
`calculate_space_distances`: register the space's key and add the
bidirectional parent-child edges. -/
def addSpaceEdges (al : List (String × List String)) (s : Space) :
    List (String × List String) :=
  let al1 := ensureKey al s.id
  match s.parent_space_id with
  | none => al1
  | some p => alAppend (alAppend (ensureKey al1 p) p s.id) s.id p

/-- The adjacency dictionary built by `calculate_space_distances`. -/
def buildAdjacency (spaces : List Space) : List (String × List String) :=
  spaces.foldl addSpaceEdges []

/-- The inner `for neighbor_id in adjacency[c]` loop of the BFS: extend the
visited set and the queue with the unvisited neighbours of `c` popped at
distance `d`. -/
def bfsExpand (adj : List (String × List String)) (c : String) (d : ℕ)
    (st : List String × List (String × ℕ)) : List String × List (String × ℕ) :=
  (alGet adj c).foldl
    (fun st n => if n ∈ st.1 then st else (n :: st.1, st.2 ++ [(n, d + 1)]))
    st

/-- The `while queue:` loop of `calculate_space_distances`, made structural by
a fuel argument.  The fuel only bounds the number of pops; `bfsFuel` below is
provably enough for the loop to run to completion (the queue empties), so the
`0` case is never reached from the top-level entry point. -/
def bfsLoop (adj : List (String × List String)) (maxD : ℕ) (start : String) :
    ℕ → List (String × ℕ) → List String → List ((String × String) × ℕ) →
    List ((String × String) × ℕ)
  | 0, _, _, acc => acc
  | _ + 1, [], _, acc => acc
  | fuel + 1, (c, d) :: queue, visited, acc =>
    let acc2 := acc ++ [((start, c), d)]
    if maxD ≤ d then
      bfsLoop adj maxD start fuel queue visited acc2
    else
      let st := bfsExpand adj c d (visited, queue)
      bfsLoop adj maxD start fuel st.2 st.1 acc2

/-- Enough fuel for a full BFS run: every node ever enqueued beyond the start
is some adjacency-list member, and each is enqueued at most once. -/
def bfsFuel (adj : List (String × List String)) : ℕ :=
  1 + 2 * ((adj.map Prod.snd).flatten.length)

/-- utils.py: `calculate_space_distances(spaces, max_distance)`.  The Python
`dict` of distances becomes an association list; the loop writes each key at
most once per BFS run, and duplicate runs (duplicate space ids) write equal
values, so first-match lookup agrees with the dict. -/
def calculate_space_distances (spaces : List Space) (max_distance : ℕ) :
    List ((String × String) × ℕ) :=
  let adj := buildAdjacency spaces
  spaces.foldl
    (fun dists s => bfsLoop adj max_distance s.id (bfsFuel adj) [(s.id, 0)] [s.id] dists)
    []

/-! ### models.py — methods -/

/-- The `space_lookup` dict of `_calculate_distance_to_root`: a Python dict
comprehension keeps the last occurrence of a duplicated id, hence the
reversed-list first match. -/
def spaceLookup (spaces : List Space) (k : String) : Option Space :=
  spaces.reverse.find? (fun s => s.id == k)

/-- The `while` loop of `Space._calculate_distance_to_root`.  `fuel` makes the
recursion structural; the loop guard `distance <= MAX_SPACE_DEPTH` bounds the
iteration count by `MAX_SPACE_DEPTH`, so fuel `MAX_SPACE_DEPTH + 1` is never
exhausted. -/
def distLoop (spaces : List Space) (root_space_id : String) :
    ℕ → ℕ → Option String → List String → ℕ
  | _, _, none, _ => MAX_SPACE_DEPTH + 1
  | 0, _, some _, _ => MAX_SPACE_DEPTH + 1
  | fuel + 1, distance, some c, visited =>
    if c ∈ visited then MAX_SPACE_DEPTH + 1
    else if MAX_SPACE_DEPTH < distance then MAX_SPACE_DEPTH + 1
    else if c = root_space_id then distance
    else
      match spaceLookup spaces c with
      | none => MAX_SPACE_DEPTH + 1
      | some sp => distLoop spaces root_space_id fuel (distance + 1) sp.parent_space_id (c :: visited)

/-- models.py: `Space._calculate_distance_to_root` (with the default
`max_depth = MAX_SPACE_DEPTH`, the only value the source uses). -/
def calculate_distance_to_root (s : Space) (spaces : List Space)
    (root_space_id : String) : ℕ :=
  if s.id = root_space_id then 0
  else
    match s.parent_space_id with
    | none => MAX_SPACE_DEPTH + 1
    | some p => distLoop spaces root_space_id (MAX_SPACE_DEPTH + 1) 1 (some p) [s.id]

/-- models.py: `Space.calculate_space_score`.  Note the source branch
`if self.distance_to_root > 0` sends the root space (distance `0`) into the
`DISCONNECTED_SPACE_DEPTH` arm. -/
def calculate_space_score (s : Space) (entities : List Entity)
    (users : List User) (spaces : List Space) (root_space_id : String) : Space :=
  let d := calculate_distance_to_root s spaces root_space_id
  { s with
    distance_to_root := d
    space_score :=
      if 0 < d then SPACE_SCORE_DECAY_BASE ^ d
      else SPACE_SCORE_DECAY_BASE ^ DISCONNECTED_SPACE_DEPTH
    member_count := users.countP (fun u => decide (s.id ∈ u.member_spaces ∨ s.id ∈ u.editor_spaces))
    entity_count := (entities.filter (fun e => e.perspectives.any (fun p => p.space_id == s.id))).length }

/-- models.py: `Perspective.calculate_scores`. -/
def Perspective.calculate_scores (p : Perspective) (votes : List Vote) : Perspective :=
  let pv := votes.filter (fun v => v.entity_id == p.entity_id && v.space_id == p.space_id)
  let weighted_upvotes := ((pv.filter (fun v => v.vote_type.isUp)).map Vote.weight).sum
  let weighted_downvotes := ((pv.filter (fun v => !v.vote_type.isUp)).map Vote.weight).sum
  { p with
    upvotes := (pv.filter (fun v => v.vote_type.isUp)).length
    downvotes := (pv.filter (fun v => !v.vote_type.isUp)).length
    raw_score := weighted_upvotes - weighted_downvotes
    contestation_score := weighted_upvotes + weighted_downvotes }

/-- models.py: `RankingConfig.__post_init__`, as a validating constructor: the
Python constructor raises `ValueError` exactly when both flags are set. -/
def mkRankingConfig (c : RankingConfig) : Except String RankingConfig :=
  if c.use_distance_weighting ∧ c.filter_non_members then
    Except.error ("Distance weighting and filter_non_members are incompatible.")
  else
    Except.ok c

/-- `Except` discriminator. -/
def isErr {ε α : Type} : Except ε α → Bool
  | Except.error _ => true
  | Except.ok _ => false

/-! ### Normalisation (models.py: `RankingConfig.normalize_scores_by_space`) -/

/-- All perspectives of all entities, in iteration order (entities in list
order, each entity's perspectives in order) — the order in which
`normalize_scores_by_space` builds its per-space groups. -/
def flatPersps (entities : List Entity) : List Perspective :=
  entities.flatMap Entity.perspectives

/-- The raw-score list of the per-space group of `sid`, in group order. -/
def groupScores (entities : List Entity) (sid : String) : List ℚ :=
  ((flatPersps entities).filter (fun p => p.space_id == sid)).map Perspective.raw_score

/-- `numpy.mean` over exact rationals (groups are never empty at call sites;
the `0`-denominator convention of `ℚ` is never exercised). -/
def mean (l : List ℚ) : ℚ := l.sum / (l.length : ℚ)

/-- Population variance, the square of `numpy.std`.  The source branches on
`std_score > 0`; over the reals this is equivalent to `0 < variance`, which is
how the branch is embedded. -/
def variance (l : List ℚ) : ℚ :=
  ((l.map (fun x => (x - mean l) ^ 2)).sum) / (l.length : ℚ)

/-- Python `min` on a nonempty list (the `[]` default is never exercised). -/
def minL : List ℚ → ℚ
  | [] => 0
  | x :: xs => xs.foldl min x

/-- Python `max` on a nonempty list (the `[]` default is never exercised). -/
def maxL : List ℚ → ℚ
  | [] => 0
  | x :: xs => xs.foldl max x

/-- Stable insertion into a descending-sorted list: the new element goes after
every earlier element with a `≥` key, exactly as `sorted(..., reverse=True)`
orders ties by original position. -/
def insertD {α : Type} (key : α → ℚ) (x : α) : List α → List α
  | [] => [x]
  | y :: ys => if key x < key y then y :: insertD key x ys else x :: y :: ys

/-- Stable descending sort by a rational key, modelling Python's stable
`sorted(..., key=key, reverse=True)`. -/
def isortD {α : Type} (key : α → ℚ) : List α → List α
  | [] => []
  | x :: xs => insertD key x (isortD key xs)

/-- The group positions listed in the order produced by
`sorted(perspectives, key=raw_score, reverse=True)`: position `rankedOrder l
!! i` holds the perspective placed at sort index `i`. -/
def rankedOrder (scores : List ℚ) : List ℕ :=
  (isortD (fun pr => pr.2) scores.enum).map Prod.fst

/-- The sort index `i` (of `enumerate(sorted_perspectives)`) of the
perspective sitting at position `k` of its group. -/
def rankIndexOf (scores : List ℚ) (k : ℕ) : ℕ :=
  (rankedOrder scores).findIdx (fun m => m == k)

/-- The per-perspective effect of one arm of `normalize_scores_by_space`:
`scores` is the raw-score list of the perspective's space group and `k` its
position within the group.  The unknown-method arm is handled by the caller
(it can only be reached when there are no perspectives at all, making this
function's fall-through dead). -/
def normPerspective (P : EngineParams) (method : String) (scores : List ℚ)
    (k : ℕ) (p : Perspective) : Perspective :=
  if method = "z_score" then
    if 0 < variance scores then
      { p with normalized_score := (p.raw_score - mean scores) / P.pstd scores }
    else
      { p with normalized_score := 0 }
  else if method = "min_max" then
    let mn := minL scores
    let mx := maxL scores
    if 0 < mx - mn then
      { p with normalized_score := (p.raw_score - mn) / (mx - mn) }
    else
      { p with normalized_score := 1/2 }
  else if method = "rank" then
    let n := scores.length
    { p with normalized_score :=
        if 1 < n then ((n : ℚ) - 1 - (rankIndexOf scores k : ℚ)) / ((n : ℚ) - 1) else 1/2 }
  else if method = "z_score_sigmoid" then
    if 0 < variance scores then
      { p with normalized_score :=
          1 / (1 + P.pexp (-((p.raw_score - mean scores) / P.pstd scores))) }
    else
      { p with normalized_score := 1/2 }
  else p

/-- Number of perspectives of space `sid` in `l` — the group position of the
next perspective of that space. -/
def countSid (l : List Perspective) (sid : String) : ℕ :=
  (l.filter (fun p => p.space_id == sid)).length

/-- Normalise a run of perspectives; `pre` is the flat list of perspectives
preceding them in group-building order. -/
def normPersps (P : EngineParams) (method : String) (gs : String → List ℚ) :
    List Perspective → List Perspective → List Perspective
  | _, [] => []
  | pre, p :: ps =>
    normPerspective P method (gs p.space_id) (countSid pre p.space_id) p ::
      normPersps P method gs (pre ++ [p]) ps

/-- Normalise all entities' perspectives; `pre` as in `normPersps`. -/
def normEntitiesGo (P : EngineParams) (method : String) (gs : String → List ℚ) :
    List Perspective → List Entity → List Entity
  | _, [] => []
  | pre, e :: es =>
    { e with perspectives := normPersps P method gs pre e.perspectives } ::
      normEntitiesGo P method gs (pre ++ e.perspectives) es

def validNormMethods : List String := ["z_score", "min_max", "rank", "z_score_sigmoid"]

/-- models.py: `RankingConfig.normalize_scores_by_space`.  The source raises
`ValueError` inside the per-group loop for an unknown method; since the method
string is loop-invariant, it raises exactly when at least one group exists and
the method is unknown. -/
def normalize_scores_by_space (P : EngineParams) (entities : List Entity)
    (method : String) : Except String (List Entity) :=
  if flatPersps entities ≠ [] ∧ method ∉ validNormMethods then
    Except.error ("Invalid normalisation method: " ++ method)
  else
    Except.ok (normEntitiesGo P method (groupScores entities) [] entities)

/-! ### scoring.py — EntityScorer -/

/-- scoring.py: `EntityScorer.filter_valid_votes`. -/
def filter_valid_votes (cfg : RankingConfig) (votes : List Vote)
    (users : List User) (entity : Entity) : List Vote :=
  votes.filter (fun vote =>
    match entity.perspectives.find?
        (fun p => p.entity_id == vote.entity_id && p.space_id == vote.space_id) with
    | none => false
    | some p =>
      if !cfg.filter_non_members then true
      else
        match users.find? (fun u => u.id == vote.user_id) with
        | none => false
        | some u => decide (p.space_id ∈ u.member_spaces ∨ p.space_id ∈ u.editor_spaces))

/-- The loop body of `EntityScorer.apply_distance_weighting` for one vote:
`none` means the vote is dropped, `some` carries the (re-weighted) vote.  The
Python iteration over the set `member_spaces | editor_spaces` is modelled by
folding over the concatenated lists: the running minimum is insensitive to
order and duplicates. -/
def distanceWeightVote (cfg : RankingConfig)
    (space_distances : List ((String × String) × ℕ)) (users : List User)
    (vote : Vote) : Option Vote :=
  match users.find? (fun u => u.id == vote.user_id) with
  | none => some vote
  | some user =>
    let user_spaces := user.member_spaces ++ user.editor_spaces
    let min_distance :=
      if user_spaces.isEmpty then cfg.max_distance
      else
        user_spaces.foldl (fun m sid =>
          match List.lookup (sid, vote.space_id) space_distances with
          | some dist => min m dist
          | none => m) (cfg.max_distance + 1)
    let distance_weight : ℚ :=
      if min_distance ≤ cfg.max_distance then cfg.distance_weight_base ^ min_distance
      else 0
    let weighted := { vote with weight := vote.weight * distance_weight }
    if 0 < weighted.weight then some weighted else none

/-- scoring.py: `EntityScorer.apply_distance_weighting`. -/
def apply_distance_weighting (cfg : RankingConfig) (votes : List Vote)
    (users : List User) (spaces : List Space) : List Vote :=
  if !cfg.use_distance_weighting then votes
  else
    votes.filterMap
      (distanceWeightVote cfg (calculate_space_distances spaces cfg.max_distance) users)

/-- scoring.py: `EntityScorer.apply_time_decay`. -/
def apply_time_decay (P : EngineParams) (cfg : RankingConfig) (score : ℚ)
    (age_hours : ℚ) : ℚ :=
  if !cfg.use_time_decay then score
  else score * P.pexp (-(cfg.time_decay_factor * age_hours))

/-! ### scoring.py — RankingEngine -/

/-- Step 2 of `rank_entities` for one entity: filter votes, score the
perspectives, and fill the entity aggregates. -/
def scoreEntity (cfg : RankingConfig) (votes : List Vote) (users : List User)
    (e : Entity) : Entity :=
  let valid := filter_valid_votes cfg votes users e
  let ps := e.perspectives.map (fun p => p.calculate_scores valid)
  { e with
    perspectives := ps
    upvotes := (ps.map Perspective.upvotes).sum
    downvotes := (ps.map Perspective.downvotes).sum
    raw_score := (ps.map Perspective.raw_score).sum
    contestation_score := (ps.map Perspective.contestation_score).sum }

/-- Step 3 of `rank_entities` for one entity (only invoked under
`use_time_decay`). -/
def decayEntity (P : EngineParams) (cfg : RankingConfig) (e : Entity) : Entity :=
  let age_hours := (P.now - e.created_at) / 3600
  { e with raw_score := apply_time_decay P cfg e.raw_score age_hours }

/-- Step 5 of `rank_entities` for one entity when spaces were provided. -/
def entityNormalized (spaces : List Space) (e : Entity) : Entity :=
  if e.perspectives.isEmpty then { e with normalized_score := 0 }
  else
    { e with normalized_score :=
        e.perspectives.foldl (fun acc p =>
          match (spaces.filter (fun s => s.id == p.space_id)).head? with
          | some sp => if 0 < sp.space_score then acc + p.normalized_score * sp.space_score else acc
          | none => acc) 0 }

/-- Steps 2–3 of `rank_entities`: score every entity from the processed votes,
then apply time decay when enabled. -/
def rankPrepared (P : EngineParams) (cfg : RankingConfig)
    (processed_votes : List Vote) (users : List User) (entities : List Entity) :
    List Entity :=
  let scored := entities.map (scoreEntity cfg processed_votes users)
  if cfg.use_time_decay then scored.map (decayEntity P cfg) else scored

/-- Step 4 of `rank_entities`: per-space normalisation when enabled.  (The
source also constructs a throw-away default `RankingConfig` here, whose
validation always succeeds, and only forwards `normalization_method`.) -/
def rankNormalized (P : EngineParams) (cfg : RankingConfig)
    (entities2 : List Entity) : Except String (List Entity) :=
  if cfg.normalize_scores then
    normalize_scores_by_space P entities2 cfg.normalization_method
  else Except.ok entities2

/-- Steps 5–7 of `rank_entities`: space-weighted entity scores, then the
stable descending sort by `normalized_score`. -/
def rankFinalize (spacesOpt : Option (List Space)) (normed : List Entity) :
    List Entity :=
  let weighted :=
    match spacesOpt with
    | some ss => normed.map (entityNormalized ss)
    | none => normed.map (fun e => { e with normalized_score := 0 })
  isortD (fun e => e.normalized_score) weighted

/-- scoring.py: `RankingEngine.rank_entities`.  The result is `Except` because
step 4 re-raises the `ValueError` of `normalize_scores_by_space` for an
unknown method (the `Except.map` is the source's explicit
error-or-`ranked_entities` match). -/
def rank_entities (P : EngineParams) (cfg : RankingConfig)
    (root_space_id : String) (entities : List Entity) (votes : List Vote)
    (users : List User) (spaces : Option (List Space)) :
    Except String (List Entity) :=
  let scoredSpaces := spaces.map (fun ss =>
    ss.map (fun s => calculate_space_score s entities users ss root_space_id))
  let processed_votes :=
    match scoredSpaces with
    | some ss =>
      if cfg.use_distance_weighting then apply_distance_weighting cfg votes users ss
      else votes
    | none => votes
  (rankNormalized P cfg (rankPrepared P cfg processed_votes users entities)).map
    (rankFinalize scoredSpaces)

/-- scoring.py: `SpaceScorer.calculate_activity_score`. -/
def calculate_activity_score (s : Space) (entities : List Entity) : ℚ :=
  (((flatPersps entities).filter (fun p => p.space_id == s.id)).map Perspective.raw_score).sum

/-- scoring.py: `RankingEngine.rank_spaces`. -/
def rank_spaces (cfg : RankingConfig) (spaces : List Space)
    (entities : List Entity) (users : List User) (root_space_id : String) :
    List Space :=
  let scored := spaces.map (fun s =>
    let s2 := calculate_space_score s entities users spaces root_space_id
    if cfg.use_activity_metrics then
      { s2 with activity_score := calculate_activity_score s2 entities }
    else s2)
  isortD Space.space_score scored

/-! ### Concrete fixtures used by the scenario evaluations and witnesses -/

/-- Parameter instance: `pstd ≡ 0`, `pexp ≡ 1`, clock at the epoch (only the
degenerate normalisation arms and the no-decay paths are exercised with it,
none of which read these values). -/
def P0 : EngineParams := ⟨fun _ => 0, fun _ => 1, 0⟩

/-- Parameter instance for the time-decay counterexample: the clock reads one
hour, and the exponential stand-in returns `1/2`, the value of
`exp(-0.1 * age_hours)` at `age_hours = 10 ln 2`-like decay scaled to the
probe; any value other than `1` exhibits the same effect. -/
def P4 : EngineParams := ⟨fun _ => 0, fun _ => 1/2, 3600⟩

/-- S1: the root space. -/
def spR : Space := { id := "root" }

/-- S1: the child space of the root. -/
def spC1 : Space := { id := "c1", parent_space_id := some ("root") }

/-- S5: chain R — A — B — C, node R (the root). -/
def chR : Space := { id := "R" }

/-- S5: chain node A (parent R). -/
def chA : Space := { id := "A", parent_space_id := some ("R") }

/-- S5: chain node B (parent A). -/
def chB : Space := { id := "B", parent_space_id := some ("A") }

/-- S5: chain node C (parent B). -/
def chC : Space := { id := "C", parent_space_id := some ("B") }

/-- A space whose parent id does not name any space of the input list. -/
def spDangling : Space := { id := "A", parent_space_id := some ("P") }

/-- S2: the single user, member of the root space. -/
def uS2 : User := { id := "u1", member_spaces := ["root"] }

/-- S2: the single perspective of the single entity, in the root space. -/
def pS2 : Perspective := { id := "e1_root", space_id := "root", entity_id := "e1" }

/-- S2: the single entity. -/
def eS2 : Entity := { id := "e1", perspectives := [pS2] }

/-- S2: the single upvote. -/
def vS2 : Vote := { user_id := "u1", entity_id := "e1", space_id := "root", vote_type := VoteType.UPVOTE }

/-- An entity with one perspective of raw score `1`, as produced by the S2
vote tally; input to the normalisation witnesses. -/
def eZ : Entity := { id := "e1", perspectives := [{ pS2 with raw_score := 1 }] }

/-- A valid configuration with distance weighting on (and, per the interlock,
the membership filter off). -/
def cfgDW : RankingConfig := { use_distance_weighting := true, filter_non_members := false }

/-- A vote of weight `0` whose user is unknown. -/
def vC6 : Vote := { user_id := "ghost", entity_id := "e1", space_id := "s1", vote_type := VoteType.UPVOTE, weight := 0 }

/-- A user belonging to no space at all. -/
def uC7 : User := { id := "u7" }

/-- A positive-weight vote by the spaceless user `uC7`. -/
def vC7 : Vote := { user_id := "u7", entity_id := "e1", space_id := "s1", vote_type := VoteType.UPVOTE, weight := 1 }

/-- A configuration with time decay enabled (all other options default). -/
def cfgTD : RankingConfig := { use_time_decay := true }

/-- Time-decay probe: the voting user, member of space s1. -/
def uC4 : User := { id := "u1", member_spaces := ["s1"] }

/-- Time-decay probe: the perspective. -/
def pC4 : Perspective := { id := "e1_s1", space_id := "s1", entity_id := "e1" }

/-- Time-decay probe: the entity (created at the epoch). -/
def eC4 : Entity := { id := "e1", perspectives := [pC4] }

/-- Time-decay probe: the single upvote. -/
def vC4 : Vote := { user_id := "u1", entity_id := "e1", space_id := "s1", vote_type := VoteType.UPVOTE }

/-- The entity produced by running the default pipeline on the `eC4` input
without spaces: one upvote tallied, perspective normalised to `0` by the
`σ = 0` arm, entity score `0` because spaces were omitted. -/
def eC4out : Entity :=
  { id := "e1",
    perspectives := [{ pC4 with upvotes := 1, raw_score := 1, contestation_score := 1 }],
    upvotes := 1, raw_score := 1, contestation_score := 1, normalized_score := 0 }

/-- The entity produced by the default pipeline on the S2 scenario. -/
def eS2out : Entity :=
  { id := "e1",
    perspectives := [{ pS2 with upvotes := 1, raw_score := 1, contestation_score := 1 }],
    upvotes := 1, raw_score := 1, contestation_score := 1, normalized_score := 0 }

/-! ### Specification-side graph notions for the distance oracle -/

/-- A walk in the adjacency structure: `isPath adj s l t` holds when each
element of `l` is adjacent to its predecessor, starting at `s` and ending at
`t`, so `l.length` is the number of edges travelled. -/
def isPath (adj : List (String × List String)) : String → List String → String → Prop
  | s, [], t => s = t
  | s, u :: rest, t => u ∈ alGet adj s ∧ isPath adj u rest t

/-- `t` is reachable from `s` by a walk of exactly `n` edges. -/
def reachIn (adj : List (String × List String)) (s : String) (n : ℕ) (t : String) : Prop :=
  ∃ l, l.length = n ∧ isPath adj s l t

/-- The hop distance from `s` to `t` is exactly `d`: some walk of `d` edges
reaches `t` and no shorter walk does. -/
def distEq (adj : List (String × List String)) (s t : String) (d : ℕ) : Prop :=
  reachIn adj s d t ∧ ∀ m < d, ¬ reachIn adj s m t

/-- The set of every node named in some adjacency list — a superset of
everything the BFS can ever enqueue beyond its start node. -/
def allTargets (adj : List (String × List String)) : Finset String :=
  ((adj.map Prod.snd).flatten).toFinset

/-- The invariant of the BFS loop from source `s` with bound `maxD`: the queue
splits as `A ++ B` with `A` the remaining level-`k` entries and `B` the
level-`k+1` entries discovered so far; `V` is the set of discovered nodes and
`R` the records already written for this run. -/
structure BfsInv (adj : List (String × List String)) (maxD : ℕ) (s : String)
    (k : ℕ) (A B : List (String × ℕ)) (V : List String)
    (R : List ((String × String) × ℕ)) : Prop where
  qA : ∀ p ∈ A, p.2 = k
  qB : ∀ p ∈ B, p.2 = k + 1
  keys : ∀ r ∈ R, r.1.1 = s
  disc : ∀ x, x ∈ V ↔ (∃ d, ((s, x), d) ∈ R) ∨ x ∈ (A ++ B).map Prod.fst
  ndR : (R.map (fun r => r.1.2)).Nodup
  ndQ : ((A ++ B).map Prod.fst).Nodup
  disj : ∀ v, v ∈ R.map (fun r => r.1.2) → v ∉ (A ++ B).map Prod.fst
  soundR : ∀ v d, ((s, v), d) ∈ R → distEq adj s v d ∧ d ≤ maxD ∧ d ≤ k
  soundQ : ∀ p ∈ A ++ B, distEq adj s p.1 p.2 ∧ p.2 ≤ maxD
  covered : ∀ x m, distEq adj s x m → m ≤ k → m ≤ maxD → x ∈ V
  frontier : k < maxD → ∀ x, distEq adj s x (k + 1) →
    x ∈ B.map Prod.fst ∨ ∃ v ∈ A.map Prod.fst, x ∈ alGet adj v


/-! ## Theorems -/

/-- Claim C2: constructing a `RankingConfig` raises exactly when
`use_distance_weighting` and `filter_non_members` are both set; every other
combination of the two flags constructs successfully. -/
theorem C2_config_interlock (c : RankingConfig) :
    isErr (mkRankingConfig c) = (c.use_distance_weighting && c.filter_non_members) := by
  cases hdw : c.use_distance_weighting <;> cases hf : c.filter_non_members <;>
    simp [mkRankingConfig, isErr, hdw, hf]

/-- Claim C1 (evaluation at the failing input, scenario S1): on root `R` and
child `C` (no users, votes, entities), `rank_spaces` returns `[C, R]` with
`C.space_score = 0.8` and `R.space_score = 0.8^11`: the source's
`distance_to_root > 0` guard sends the root (distance `0`) into the
disconnected arm, contradicting the claim's `[R (1.0), C (0.8)]`. -/
theorem C1_rank_spaces_S1_eval :
    (rank_spaces {} [spR, spC1] [] [] ("root")).map (fun s => (s.id, s.space_score))
      = [("c1", (4:ℚ)/5), ("root", ((4:ℚ)/5)^11)] ∧
    (calculate_space_score spR [] [] [spR, spC1] ("root")).distance_to_root = 0 ∧
    (calculate_space_score spR [] [] [spR, spC1] ("root")).space_score = ((4:ℚ)/5)^11 := by
  refine ⟨?_, ?_, ?_⟩ <;>
    norm_num +decide [rank_spaces, calculate_space_score, calculate_distance_to_root, distLoop,
      spaceLookup, isortD, insertD, SPACE_SCORE_DECAY_BASE, MAX_SPACE_DEPTH,
      DISCONNECTED_SPACE_DEPTH, spR, spC1, calculate_activity_score, flatPersps]

/-- Claim C5: under `filter_non_members`, every vote surviving
`filter_valid_votes` was cast by a user (the first user matching the vote's
`user_id`) who is a member or editor of the vote's space; and regardless of
the flag, every surviving vote has a matching perspective of the entity. -/
theorem C5_filter_valid_votes_membership (cfg : RankingConfig) (votes : List Vote)
    (users : List User) (entity : Entity) :
    (cfg.filter_non_members = true →
      ∀ v ∈ filter_valid_votes cfg votes users entity,
        ∃ u, List.find? (fun u2 => u2.id == v.user_id) users = some u ∧
          (v.space_id ∈ u.member_spaces ∨ v.space_id ∈ u.editor_spaces)) ∧
    (∀ v ∈ filter_valid_votes cfg votes users entity,
      ∃ p ∈ entity.perspectives, p.entity_id = v.entity_id ∧ p.space_id = v.space_id) := by
  constructor
  · intro hf v hv
    rw [filter_valid_votes, List.mem_filter] at hv
    obtain ⟨-, hpred⟩ := hv
    cases hp : entity.perspectives.find?
        (fun p => p.entity_id == v.entity_id && p.space_id == v.space_id) with
    | none => rw [hp] at hpred; simp at hpred
    | some p =>
      rw [hp] at hpred
      have hpv := List.find?_some hp
      simp only [Bool.and_eq_true, beq_iff_eq] at hpv
      simp only [hf, Bool.not_true, Bool.false_eq_true, if_false] at hpred
      cases hu : List.find? (fun u2 => u2.id == v.user_id) users with
      | none => rw [hu] at hpred; simp at hpred
      | some u =>
        rw [hu] at hpred
        simp only [decide_eq_true_eq] at hpred
        exact ⟨u, rfl, by rw [← hpv.2]; exact hpred⟩
  · intro v hv
    rw [filter_valid_votes, List.mem_filter] at hv
    obtain ⟨-, hpred⟩ := hv
    cases hp : entity.perspectives.find?
        (fun p => p.entity_id == v.entity_id && p.space_id == v.space_id) with
    | none => rw [hp] at hpred; simp at hpred
    | some p =>
      have hpv := List.find?_some hp
      simp only [Bool.and_eq_true, beq_iff_eq] at hpv
      exact ⟨p, List.mem_of_find?_eq_some hp, hpv.1, hpv.2⟩

/-- Witness for C5: the S2 vote survives the default-config filter and its
user is a member of the vote's space. -/
theorem C5_witness :
    ({} : RankingConfig).filter_non_members = true ∧
    vS2 ∈ filter_valid_votes {} [vS2] [uS2] eS2 ∧
    ∃ u, List.find? (fun u2 => u2.id == vS2.user_id) [uS2] = some u ∧
      (vS2.space_id ∈ u.member_spaces ∨ vS2.space_id ∈ u.editor_spaces) := by
  refine ⟨rfl, ?_, ?_⟩
  · norm_num +decide [filter_valid_votes, vS2, uS2, eS2, pS2]
  · exact (C5_filter_valid_votes_membership {} [vS2] [uS2] eS2).1 rfl vS2
      (by norm_num +decide [filter_valid_votes, vS2, uS2, eS2, pS2])

/-- Counterexample to C6 as stated: a weight-`0` vote whose user is unknown
is passed through `apply_distance_weighting` unchanged, so the output contains
a vote without positive weight. -/
theorem C6_cex_zero_weight_passthrough :
    vC6 ∈ apply_distance_weighting cfgDW [vC6] [] [] ∧ ¬ (0 < vC6.weight) := by
  constructor
  · norm_num +decide [apply_distance_weighting, distanceWeightVote, cfgDW, vC6,
      calculate_space_distances, buildAdjacency, bfsFuel]
  · norm_num [vC6]

/-- Destructor for the guarded emission at the end of the weighting loop. -/
theorem if_some_eq {α : Type} {c : Prop} [Decidable c] {w v : α}
    (h : (if c then some w else none) = some v) : c ∧ w = v := by
  split at h
  next hc => exact ⟨hc, Option.some.inj h⟩
  next => cases h

/-- The per-vote weighting step never emits a nonpositive weight when fed a
positive one: a missing user passes the vote through, and the emission guard
requires positivity. -/
theorem distanceWeightVote_pos (cfg : RankingConfig)
    (D : List ((String × String) × ℕ)) (users : List User) (a v : Vote)
    (ha : 0 < a.weight) (h : distanceWeightVote cfg D users a = some v) :
    0 < v.weight := by
  rw [distanceWeightVote] at h
  cases hu : users.find? (fun u => u.id == a.user_id) with
  | none => rw [hu] at h; injection h with h2; rw [← h2]; exact ha
  | some u =>
    rw [hu] at h
    dsimp only at h
    obtain ⟨hc, hw2⟩ := if_some_eq h
    rw [← hw2]
    exact hc

/-- Claim C6 amended: if every input vote has positive weight, every vote in
the output of `apply_distance_weighting` has positive weight (as stated, the
claim fails for weight-`0` input votes whose user is unknown, which are passed
through unfiltered). -/
theorem C6_positive_weights_preserved (cfg : RankingConfig) (votes : List Vote)
    (users : List User) (spaces : List Space)
    (hpos : ∀ v ∈ votes, 0 < v.weight) :
    ∀ v ∈ apply_distance_weighting cfg votes users spaces, 0 < v.weight := by
  intro v hv
  rw [apply_distance_weighting] at hv
  split at hv
  · exact hpos v hv
  · rw [List.mem_filterMap] at hv
    obtain ⟨a, ha, hfa⟩ := hv
    exact distanceWeightVote_pos cfg _ users a v (hpos a ha) hfa

/-- Witness for the amended C6 at a concrete run. -/
theorem C6_amended_witness :
    (∀ v ∈ [vC7], 0 < v.weight) ∧ ∀ v ∈ apply_distance_weighting cfgDW [vC7] [uC7] [], 0 < v.weight :=
  ⟨by norm_num [vC7], C6_positive_weights_preserved cfgDW [vC7] [uC7] [] (by norm_num [vC7])⟩

/-- Claim C7: a vote whose (found) user has empty `member_spaces` and
`editor_spaces` gets `min_distance = max_distance`, hence survives distance
weighting with weight `old_weight * distance_weight_base ^ max_distance`,
nonzero for positive old weight and positive base. -/
theorem C7_empty_user_spaces_weight (cfg : RankingConfig) (votes : List Vote)
    (users : List User) (spaces : List Space) (v : Vote) (u : User)
    (hflag : cfg.use_distance_weighting = true) (hv : v ∈ votes)
    (hfind : List.find? (fun u2 => u2.id == v.user_id) users = some u)
    (hm : u.member_spaces = []) (he : u.editor_spaces = [])
    (hw : 0 < v.weight) (hb : 0 < cfg.distance_weight_base) :
    { v with weight := v.weight * cfg.distance_weight_base ^ cfg.max_distance }
      ∈ apply_distance_weighting cfg votes users spaces := by
  rw [apply_distance_weighting, hflag]
  simp only [Bool.not_true, Bool.false_eq_true, if_false]
  refine List.mem_filterMap.mpr ⟨v, hv, ?_⟩
  rw [distanceWeightVote, hfind]
  dsimp only
  rw [hm, he]
  simp only [List.nil_append, List.isEmpty_nil, if_true, le_refl]
  rw [if_pos (mul_pos hw (pow_pos hb cfg.max_distance))]

/-- Witness for C7: the spaceless user's vote of weight `1` survives with
weight `0.8 ^ 10`. -/
theorem C7_witness :
    { vC7 with weight := vC7.weight * cfgDW.distance_weight_base ^ cfgDW.max_distance }
      ∈ apply_distance_weighting cfgDW [vC7] [uC7] [] :=
  C7_empty_user_spaces_weight cfgDW [vC7] [uC7] [] vC7 uC7 rfl (by simp)
    (by norm_num +decide [uC7, vC7]) rfl rfl (by norm_num [vC7]) (by norm_num [cfgDW])

-- ## sort helper lemmas

theorem mem_insertD {α : Type} (key : α → ℚ) (x : α) (l : List α) (a : α) :
    a ∈ insertD key x l ↔ a = x ∨ a ∈ l := by
  induction l with
  | nil => simp [insertD]
  | cons y ys ih =>
    rw [insertD]
    split
    · simp only [List.mem_cons, ih]
      tauto
    · simp [List.mem_cons]

theorem mem_isortD {α : Type} (key : α → ℚ) (l : List α) (a : α) :
    a ∈ isortD key l ↔ a ∈ l := by
  induction l with
  | nil => simp [isortD]
  | cons x xs ih => rw [isortD]; rw [mem_insertD]; simp [ih]

theorem isortD_const {α : Type} (key : α → ℚ) (c : ℚ) :
    ∀ l : List α, (∀ x ∈ l, key x = c) → isortD key l = l := by
  intro l
  induction l with
  | nil => intro _; rfl
  | cons x xs ih =>
    intro hall
    rw [isortD, ih (fun y hy => hall y (List.mem_cons_of_mem x hy))]
    cases xs with
    | nil => rfl
    | cons y ys =>
      rw [insertD]
      rw [hall x (List.mem_cons_self x _), hall y (List.mem_cons_of_mem x (List.mem_cons_self y ys))]
      simp

-- ## normalisation-step field preservation

theorem normPerspective_space_id (P : EngineParams) (m : String) (sc : List ℚ)
    (k : ℕ) (p : Perspective) : (normPerspective P m sc k p).space_id = p.space_id := by
  unfold normPerspective
  dsimp only
  repeat' split
  all_goals rfl

theorem normPerspective_upvotes (P : EngineParams) (m : String) (sc : List ℚ)
    (k : ℕ) (p : Perspective) : (normPerspective P m sc k p).upvotes = p.upvotes := by
  unfold normPerspective
  dsimp only
  repeat' split
  all_goals rfl

theorem normPerspective_downvotes (P : EngineParams) (m : String) (sc : List ℚ)
    (k : ℕ) (p : Perspective) : (normPerspective P m sc k p).downvotes = p.downvotes := by
  unfold normPerspective
  dsimp only
  repeat' split
  all_goals rfl

theorem normPerspective_raw_score (P : EngineParams) (m : String) (sc : List ℚ)
    (k : ℕ) (p : Perspective) : (normPerspective P m sc k p).raw_score = p.raw_score := by
  unfold normPerspective
  dsimp only
  repeat' split
  all_goals rfl

theorem normPerspective_contestation (P : EngineParams) (m : String) (sc : List ℚ)
    (k : ℕ) (p : Perspective) :
    (normPerspective P m sc k p).contestation_score = p.contestation_score := by
  unfold normPerspective
  dsimp only
  repeat' split
  all_goals rfl

theorem normPersps_map {α : Type} (P : EngineParams) (m : String)
    (gs : String → List ℚ) (f : Perspective → α)
    (hf : ∀ sc k p, f (normPerspective P m sc k p) = f p) :
    ∀ pre ps, (normPersps P m gs pre ps).map f = ps.map f := by
  intro pre ps
  induction ps generalizing pre with
  | nil => rfl
  | cons p ps ih => rw [normPersps]; simp only [List.map_cons, hf, ih]

theorem normEntitiesGo_shape (P : EngineParams) (m : String) (gs : String → List ℚ) :
    ∀ pre es e', e' ∈ normEntitiesGo P m gs pre es →
      ∃ e pre2, e ∈ es ∧ e' = { e with perspectives := normPersps P m gs pre2 e.perspectives } := by
  intro pre es
  induction es generalizing pre with
  | nil => intro e' h; cases h
  | cons e es ih =>
    intro e' h
    rw [normEntitiesGo] at h
    rcases List.mem_cons.mp h with h1 | h2
    · exact ⟨e, pre, List.mem_cons_self e es, h1⟩
    · obtain ⟨e2, pre2, hmem, heq⟩ := ih (pre ++ e.perspectives) e' h2
      exact ⟨e2, pre2, List.mem_cons_of_mem e hmem, heq⟩

theorem normEntitiesGo_map_id (P : EngineParams) (m : String) (gs : String → List ℚ) :
    ∀ pre es, (normEntitiesGo P m gs pre es).map Entity.id = es.map Entity.id := by
  intro pre es
  induction es generalizing pre with
  | nil => rfl
  | cons e es ih => rw [normEntitiesGo]; simp only [List.map_cons, ih]

theorem normalize_ok (P : EngineParams) (es l : List Entity) (m : String)
    (h : normalize_scores_by_space P es m = Except.ok l) :
    l = normEntitiesGo P m (groupScores es) [] es := by
  rw [normalize_scores_by_space] at h
  split at h
  · cases h
  · exact (Except.ok.inj h).symm

theorem exceptMap_ok {ε α β : Type} (f : α → β) (x : Except ε α) (b : β)
    (h : x.map f = Except.ok b) : ∃ a, x = Except.ok a ∧ b = f a := by
  cases x with
  | error e => cases h
  | ok a => exact ⟨a, rfl, (Except.ok.inj h).symm⟩

-- id preservation through the pipeline

theorem rankPrepared_map_id (P : EngineParams) (cfg : RankingConfig)
    (votes : List Vote) (users : List User) (entities : List Entity) :
    (rankPrepared P cfg votes users entities).map Entity.id = entities.map Entity.id := by
  rw [rankPrepared]
  split <;> simp only [List.map_map] <;> rfl

theorem rankNormalized_ok_map_id (P : EngineParams) (cfg : RankingConfig)
    (es l : List Entity) (h : rankNormalized P cfg es = Except.ok l) :
    l.map Entity.id = es.map Entity.id := by
  rw [rankNormalized] at h
  split at h
  · rw [normalize_ok P es l _ h, normEntitiesGo_map_id]
  · rw [← Except.ok.inj h]

/-- Claim C10: when `rank_entities` is called without spaces, every returned
entity has `normalized_score = 0`, and the returned list is the input entities
(score fields updated) in their original input order — the descending sort of
all-equal keys is stable. -/
theorem C10_rank_entities_no_spaces (P : EngineParams) (cfg : RankingConfig)
    (root : String) (entities : List Entity) (votes : List Vote)
    (users : List User) (l : List Entity)
    (h : rank_entities P cfg root entities votes users none = Except.ok l) :
    l.map Entity.id = entities.map Entity.id ∧ ∀ e ∈ l, e.normalized_score = 0 := by
  dsimp only [rank_entities, Option.map] at h
  obtain ⟨n, hn, hl⟩ := exceptMap_ok _ _ _ h
  have hfin : rankFinalize none n
      = n.map (fun e => { e with normalized_score := 0 }) := by
    rw [rankFinalize]
    exact isortD_const _ 0 _ (by intro x hx; obtain ⟨a, -, ha⟩ := List.mem_map.mp hx; rw [← ha])
  rw [hfin] at hl
  constructor
  · rw [hl, List.map_map]
    have : (Entity.id ∘ fun e => { e with normalized_score := 0 }) = Entity.id := rfl
    rw [this]
    exact (rankNormalized_ok_map_id P cfg _ n hn).trans (rankPrepared_map_id P cfg _ users entities)
  · intro e he
    rw [hl] at he
    obtain ⟨a, -, ha⟩ := List.mem_map.mp he
    rw [← ha]

-- field preservation of the finalisation step

theorem entityNormalized_fields (ss : List Space) (a : Entity) :
    (entityNormalized ss a).perspectives = a.perspectives ∧
    (entityNormalized ss a).upvotes = a.upvotes ∧
    (entityNormalized ss a).downvotes = a.downvotes ∧
    (entityNormalized ss a).raw_score = a.raw_score ∧
    (entityNormalized ss a).contestation_score = a.contestation_score := by
  unfold entityNormalized
  split <;> exact ⟨rfl, rfl, rfl, rfl, rfl⟩

theorem rankFinalize_mem (so : Option (List Space)) (n : List Entity) (e : Entity)
    (he : e ∈ rankFinalize so n) :
    ∃ e3 ∈ n, e.perspectives = e3.perspectives ∧ e.upvotes = e3.upvotes ∧
      e.downvotes = e3.downvotes ∧ e.raw_score = e3.raw_score ∧
      e.contestation_score = e3.contestation_score := by
  unfold rankFinalize at he
  dsimp only at he
  cases so with
  | none =>
    rw [mem_isortD] at he
    obtain ⟨a, ha, rfl⟩ := List.mem_map.mp he
    exact ⟨a, ha, rfl, rfl, rfl, rfl, rfl⟩
  | some ss =>
    rw [mem_isortD] at he
    obtain ⟨a, ha, rfl⟩ := List.mem_map.mp he
    obtain ⟨f1, f2, f3, f4, f5⟩ := entityNormalized_fields ss a
    exact ⟨a, ha, f1, f2, f3, f4, f5⟩

theorem rankPrepared_agg (P : EngineParams) (cfg : RankingConfig) (pv : List Vote)
    (users : List User) (entities : List Entity) :
    ∀ y ∈ rankPrepared P cfg pv users entities,
      (y.upvotes = (y.perspectives.map Perspective.upvotes).sum ∧
       y.downvotes = (y.perspectives.map Perspective.downvotes).sum ∧
       y.contestation_score = (y.perspectives.map Perspective.contestation_score).sum) ∧
      (cfg.use_time_decay = false →
        y.raw_score = (y.perspectives.map Perspective.raw_score).sum) := by
  intro y hy
  simp only [rankPrepared] at hy
  split at hy
  next hflag =>
    obtain ⟨w, hw, rfl⟩ := List.mem_map.mp hy
    obtain ⟨x, hx, rfl⟩ := List.mem_map.mp hw
    refine ⟨⟨rfl, rfl, rfl⟩, ?_⟩
    intro hf
    rw [hf] at hflag
    cases hflag
  next =>
    obtain ⟨x, hx, rfl⟩ := List.mem_map.mp hy
    exact ⟨⟨rfl, rfl, rfl⟩, fun _ => rfl⟩

theorem rankNormalized_agg (P : EngineParams) (cfg : RankingConfig)
    (es n : List Entity) (hn : rankNormalized P cfg es = Except.ok n)
    (hes : ∀ y ∈ es,
      (y.upvotes = (y.perspectives.map Perspective.upvotes).sum ∧
       y.downvotes = (y.perspectives.map Perspective.downvotes).sum ∧
       y.contestation_score = (y.perspectives.map Perspective.contestation_score).sum) ∧
      (cfg.use_time_decay = false →
        y.raw_score = (y.perspectives.map Perspective.raw_score).sum)) :
    ∀ x ∈ n,
      (x.upvotes = (x.perspectives.map Perspective.upvotes).sum ∧
       x.downvotes = (x.perspectives.map Perspective.downvotes).sum ∧
       x.contestation_score = (x.perspectives.map Perspective.contestation_score).sum) ∧
      (cfg.use_time_decay = false →
        x.raw_score = (x.perspectives.map Perspective.raw_score).sum) := by
  intro x hx
  rw [rankNormalized] at hn
  split at hn
  · rw [normalize_ok P es n _ hn] at hx
    obtain ⟨e2, pre2, he2, rfl⟩ := normEntitiesGo_shape P _ _ [] es x hx
    obtain ⟨⟨c1, c2, c3⟩, c4⟩ := hes e2 he2
    constructor
    · refine ⟨?_, ?_, ?_⟩
      · show e2.upvotes = _
        rw [normPersps_map P _ _ Perspective.upvotes (normPerspective_upvotes P _)]
        exact c1
      · show e2.downvotes = _
        rw [normPersps_map P _ _ Perspective.downvotes (normPerspective_downvotes P _)]
        exact c2
      · show e2.contestation_score = _
        rw [normPersps_map P _ _ Perspective.contestation_score (normPerspective_contestation P _)]
        exact c3
    · intro hf
      show e2.raw_score = _
      rw [normPersps_map P _ _ Perspective.raw_score (normPerspective_raw_score P _)]
      exact c4 hf
  · rw [← Except.ok.inj hn] at hx
    exact hes x hx

/-- Claim C4 amended: after `rank_entities`, every returned entity's
`upvotes`, `downvotes` and `contestation_score` equal the sums over its owned
perspectives under every configuration; `raw_score` equals the perspective sum
whenever `use_time_decay` is off (as stated, the claim fails under
`use_time_decay`, which rescales `entity.raw_score` after aggregation). -/
theorem C4_entity_aggregates (P : EngineParams) (cfg : RankingConfig)
    (root : String) (entities : List Entity) (votes : List Vote)
    (users : List User) (spaces : Option (List Space)) (l : List Entity)
    (h : rank_entities P cfg root entities votes users spaces = Except.ok l) :
    ∀ e ∈ l,
      (e.upvotes = (e.perspectives.map Perspective.upvotes).sum ∧
       e.downvotes = (e.perspectives.map Perspective.downvotes).sum ∧
       e.contestation_score = (e.perspectives.map Perspective.contestation_score).sum) ∧
      (cfg.use_time_decay = false →
        e.raw_score = (e.perspectives.map Perspective.raw_score).sum) := by
  rw [rank_entities] at h
  obtain ⟨n, hn, hl⟩ := exceptMap_ok _ _ _ h
  intro e he
  rw [hl] at he
  obtain ⟨e3, he3, hp, hu, hd, hr, hc⟩ := rankFinalize_mem _ n e he
  obtain ⟨⟨k1, k2, k3⟩, k4⟩ :=
    rankNormalized_agg P cfg _ n hn (rankPrepared_agg P cfg _ users entities) e3 he3
  refine ⟨⟨?_, ?_, ?_⟩, ?_⟩
  · rw [hu, hp]; exact k1
  · rw [hd, hp]; exact k2
  · rw [hc, hp]; exact k3
  · intro hf; rw [hr, hp]; exact k4 hf

/-- Counterexample to C4 as stated: with `use_time_decay` on (decay stand-in
`1/2`), the returned entity has `raw_score = 1/2` while its perspectives sum
to `1`. -/
theorem C4_cex_time_decay_breaks_raw_aggregate :
    (rank_entities P4 cfgTD ("root") [eC4] [vC4] [uC4] none).map
        (List.map (fun e => (e.raw_score, (e.perspectives.map Perspective.raw_score).sum)))
      = Except.ok [((1:ℚ)/2, 1)] ∧ ((1:ℚ)/2) ≠ (1:ℚ) := by
  constructor
  · norm_num +decide [rank_entities, rankPrepared, rankNormalized, rankFinalize, scoreEntity,
      filter_valid_votes, Perspective.calculate_scores, VoteType.isUp, decayEntity,
      apply_time_decay, normalize_scores_by_space, flatPersps, groupScores, normEntitiesGo,
      normPersps, normPerspective, countSid, variance, mean, isortD, insertD, Except.map,
      entityNormalized, P4, cfgTD, eC4, vC4, uC4, pC4, validNormMethods]
  · norm_num

/-- Witness for the amended C4: the S2 run, with every aggregate checked on
the concrete output. -/
theorem C4_entity_aggregates_witness :
    rank_entities P0 {} ("root") [eS2] [vS2] [uS2] (some [spR]) = Except.ok [eS2out] ∧
    ((eS2out.upvotes = (eS2out.perspectives.map Perspective.upvotes).sum ∧
      eS2out.downvotes = (eS2out.perspectives.map Perspective.downvotes).sum ∧
      eS2out.contestation_score = (eS2out.perspectives.map Perspective.contestation_score).sum) ∧
     (({} : RankingConfig).use_time_decay = false →
       eS2out.raw_score = (eS2out.perspectives.map Perspective.raw_score).sum)) := by
  have hrun : rank_entities P0 {} ("root") [eS2] [vS2] [uS2] (some [spR]) = Except.ok [eS2out] := by
    norm_num +decide [rank_entities, rankPrepared, rankNormalized, rankFinalize, scoreEntity,
      filter_valid_votes, Perspective.calculate_scores, VoteType.isUp, decayEntity,
      apply_time_decay, normalize_scores_by_space, flatPersps, groupScores, normEntitiesGo,
      normPersps, normPerspective, countSid, variance, mean, isortD, insertD, Except.map,
      entityNormalized, calculate_space_score, calculate_distance_to_root,
      SPACE_SCORE_DECAY_BASE, MAX_SPACE_DEPTH, DISCONNECTED_SPACE_DEPTH,
      P0, eS2, vS2, uS2, pS2, spR, eS2out, validNormMethods]
  exact ⟨hrun,
    C4_entity_aggregates P0 {} ("root") [eS2] [vS2] [uS2] (some [spR]) [eS2out] hrun
      eS2out (List.mem_singleton.mpr rfl)⟩

/-- Witness for C10 at the concrete spaces-omitted run. -/
theorem C10_rank_entities_no_spaces_witness :
    rank_entities P0 {} ("root") [eC4] [vC4] [uC4] none = Except.ok [eC4out] ∧
    [eC4out].map Entity.id = [eC4].map Entity.id ∧
    ∀ e ∈ [eC4out], e.normalized_score = 0 := by
  have hrun : rank_entities P0 {} ("root") [eC4] [vC4] [uC4] none = Except.ok [eC4out] := by
    norm_num +decide [rank_entities, rankPrepared, rankNormalized, rankFinalize, scoreEntity,
      filter_valid_votes, Perspective.calculate_scores, VoteType.isUp, decayEntity,
      apply_time_decay, normalize_scores_by_space, flatPersps, groupScores, normEntitiesGo,
      normPersps, normPerspective, countSid, variance, mean, isortD, insertD, Except.map,
      entityNormalized, P0, eC4, vC4, uC4, pC4, eC4out, validNormMethods]
  exact ⟨hrun, C10_rank_entities_no_spaces P0 {} ("root") [eC4] [vC4] [uC4] [eC4out] hrun⟩

theorem normPersps_mem (P : EngineParams) (m : String) (gs : String → List ℚ) :
    ∀ pre ps q, q ∈ normPersps P m gs pre ps →
      ∃ p k, p ∈ ps ∧ q = normPerspective P m (gs p.space_id) k p := by
  intro pre ps
  induction ps generalizing pre with
  | nil => intro q hq; cases hq
  | cons p ps ih =>
    intro q hq
    rw [normPersps] at hq
    rcases List.mem_cons.mp hq with h1 | h2
    · exact ⟨p, countSid pre p.space_id, List.mem_cons_self p ps, h1⟩
    · obtain ⟨p2, k, hp2, heq⟩ := ih (pre ++ [p]) q h2
      exact ⟨p2, k, List.mem_cons_of_mem p hp2, heq⟩

/-- Every output perspective of the normaliser is `normPerspective` applied to
some input perspective of the same space, with the group of that space. -/
theorem normalize_mem_persp (P : EngineParams) (entities l : List Entity)
    (m : String) (h : normalize_scores_by_space P entities m = Except.ok l) :
    ∀ e2 ∈ l, ∀ q ∈ e2.perspectives,
      ∃ p k, q = normPerspective P m (groupScores entities q.space_id) k p := by
  intro e2 he2 q hq
  rw [normalize_ok P entities l m h] at he2
  obtain ⟨e, pre2, -, rfl⟩ := normEntitiesGo_shape P m _ [] entities e2 he2
  obtain ⟨p, k, -, rfl⟩ := normPersps_mem P m _ pre2 e.perspectives q hq
  rw [normPerspective_space_id]
  exact ⟨p, k, rfl⟩

theorem normPerspective_z_degenerate (P : EngineParams) (sc : List ℚ) (k : ℕ)
    (p : Perspective) (h : variance sc = 0) :
    (normPerspective P ("z_score") sc k p).normalized_score = 0 := by
  unfold normPerspective
  rw [if_pos rfl, h, if_neg (lt_irrefl 0)]

theorem normPerspective_minmax_degenerate (P : EngineParams) (sc : List ℚ) (k : ℕ)
    (p : Perspective) (h : maxL sc - minL sc = 0) :
    (normPerspective P ("min_max") sc k p).normalized_score = 1/2 := by
  unfold normPerspective
  rw [if_neg (by decide), if_pos rfl]
  dsimp only
  rw [h, if_neg (lt_irrefl 0)]

theorem normPerspective_rank_single (P : EngineParams) (sc : List ℚ) (k : ℕ)
    (p : Perspective) (h : sc.length = 1) :
    (normPerspective P ("rank") sc k p).normalized_score = 1/2 := by
  unfold normPerspective
  rw [if_neg (by decide), if_neg (by decide), if_pos rfl]
  dsimp only
  rw [h, if_neg (by norm_num)]

theorem normPerspective_sigmoid_degenerate (P : EngineParams) (sc : List ℚ) (k : ℕ)
    (p : Perspective) (h : variance sc = 0) :
    (normPerspective P ("z_score_sigmoid") sc k p).normalized_score = 1/2 := by
  unfold normPerspective
  rw [if_neg (by decide), if_neg (by decide), if_neg (by decide), if_pos rfl, h,
    if_neg (lt_irrefl 0)]

/-- Claim C9: per-space normalisation handles every degenerate case without
raising — a valid method always returns `ok`; `z_score` with zero variance
(σ = 0) sets `0.0`; `min_max` with zero range sets `0.5`; `rank` on a
singleton group sets `0.5`; `z_score_sigmoid` with zero variance sets `0.5`;
and the S2 scenario yields perspective `(upvotes, raw, normalized) = (1, 1, 0)`
and entity `normalized_score = 0`. -/
theorem C9_normalization_degenerate_cases :
    (∀ (P : EngineParams) (entities : List Entity) (method : String),
      method ∈ validNormMethods →
      ∃ l, normalize_scores_by_space P entities method = Except.ok l) ∧
    (∀ (P : EngineParams) (entities l : List Entity),
      normalize_scores_by_space P entities ("z_score") = Except.ok l →
      ∀ e2 ∈ l, ∀ q ∈ e2.perspectives,
        variance (groupScores entities q.space_id) = 0 → q.normalized_score = 0) ∧
    (∀ (P : EngineParams) (entities l : List Entity),
      normalize_scores_by_space P entities ("min_max") = Except.ok l →
      ∀ e2 ∈ l, ∀ q ∈ e2.perspectives,
        maxL (groupScores entities q.space_id) - minL (groupScores entities q.space_id) = 0 →
          q.normalized_score = 1/2) ∧
    (∀ (P : EngineParams) (entities l : List Entity),
      normalize_scores_by_space P entities ("rank") = Except.ok l →
      ∀ e2 ∈ l, ∀ q ∈ e2.perspectives,
        (groupScores entities q.space_id).length = 1 → q.normalized_score = 1/2) ∧
    (∀ (P : EngineParams) (entities l : List Entity),
      normalize_scores_by_space P entities ("z_score_sigmoid") = Except.ok l →
      ∀ e2 ∈ l, ∀ q ∈ e2.perspectives,
        variance (groupScores entities q.space_id) = 0 → q.normalized_score = 1/2) ∧
    (rank_entities P0 {} ("root") [eS2] [vS2] [uS2] (some [spR]) = Except.ok [eS2out] ∧
      eS2out.perspectives.map (fun q => (q.upvotes, q.raw_score, q.normalized_score))
        = [(1, 1, 0)] ∧
      eS2out.normalized_score = 0) := by
  refine ⟨?_, ?_, ?_, ?_, ?_, ?_, ?_, ?_⟩
  · intro P entities method hm
    rw [normalize_scores_by_space, if_neg (fun hcon => hcon.2 hm)]
    exact ⟨_, rfl⟩
  · intro P entities l h e2 he2 q hq hvar
    obtain ⟨p, k, heq⟩ := normalize_mem_persp P entities l _ h e2 he2 q hq
    rw [heq]
    exact normPerspective_z_degenerate P _ k p hvar
  · intro P entities l h e2 he2 q hq hr
    obtain ⟨p, k, heq⟩ := normalize_mem_persp P entities l _ h e2 he2 q hq
    rw [heq]
    exact normPerspective_minmax_degenerate P _ k p hr
  · intro P entities l h e2 he2 q hq hn
    obtain ⟨p, k, heq⟩ := normalize_mem_persp P entities l _ h e2 he2 q hq
    rw [heq]
    exact normPerspective_rank_single P _ k p hn
  · intro P entities l h e2 he2 q hq hvar
    obtain ⟨p, k, heq⟩ := normalize_mem_persp P entities l _ h e2 he2 q hq
    rw [heq]
    exact normPerspective_sigmoid_degenerate P _ k p hvar
  · norm_num +decide [rank_entities, rankPrepared, rankNormalized, rankFinalize, scoreEntity,
      filter_valid_votes, Perspective.calculate_scores, VoteType.isUp, decayEntity,
      apply_time_decay, normalize_scores_by_space, flatPersps, groupScores, normEntitiesGo,
      normPersps, normPerspective, countSid, variance, mean, isortD, insertD, Except.map,
      entityNormalized, calculate_space_score, calculate_distance_to_root,
      SPACE_SCORE_DECAY_BASE, MAX_SPACE_DEPTH, DISCONNECTED_SPACE_DEPTH,
      P0, eS2, vS2, uS2, pS2, spR, eS2out, validNormMethods]
  · norm_num +decide [eS2out, pS2]
  · rfl

/-- Witness for C9: the `z_score` degenerate arm evaluated on a one-entity
one-perspective input. -/
theorem C9_witness :
    normalize_scores_by_space P0 [eZ] ("z_score") = Except.ok [eZ] ∧
    variance (groupScores [eZ] ("root")) = 0 ∧
    ∀ q ∈ eZ.perspectives, q.normalized_score = 0 := by
  have hnorm : normalize_scores_by_space P0 [eZ] ("z_score") = Except.ok [eZ] := by
    norm_num +decide [normalize_scores_by_space, flatPersps, groupScores, normEntitiesGo,
      normPersps, normPerspective, countSid, variance, mean, eZ, pS2, validNormMethods]
  have hvar : variance (groupScores [eZ] ("root")) = 0 := by
    norm_num +decide [variance, mean, groupScores, flatPersps, eZ, pS2]
  refine ⟨hnorm, hvar, ?_⟩
  intro q hq
  have hq2 := List.mem_singleton.mp hq
  subst hq2
  exact C9_normalization_degenerate_cases.2.1 P0 [eZ] [eZ] hnorm eZ
    (List.mem_singleton.mpr rfl) _ hq hvar

theorem insertD_map {α β : Type} (key : β → ℚ) (f : α → β) (x : α) :
    ∀ l : List α, insertD key (f x) (l.map f) = (insertD (fun a => key (f a)) x l).map f := by
  intro l
  induction l with
  | nil => rfl
  | cons y ys ih =>
    rw [List.map_cons, insertD, insertD]
    split
    · rw [List.map_cons, ih]
    · rw [List.map_cons, List.map_cons]

theorem isortD_map {α β : Type} (key : β → ℚ) (f : α → β) :
    ∀ l : List α, isortD key (l.map f) = (isortD (fun a => key (f a)) l).map f := by
  intro l
  induction l with
  | nil => rfl
  | cons y ys ih => rw [List.map_cons, isortD, isortD, ih, insertD_map]

theorem flatPersps_map_decay (P : EngineParams) (c : RankingConfig) :
    ∀ es : List Entity, flatPersps (es.map (decayEntity P c)) = flatPersps es := by
  intro es
  induction es with
  | nil => rfl
  | cons e es ih =>
    show (decayEntity P c e).perspectives ++ flatPersps (es.map (decayEntity P c))
        = e.perspectives ++ flatPersps es
    rw [ih]
    rfl

theorem groupScores_map_decay (P : EngineParams) (c : RankingConfig) (es : List Entity) :
    groupScores (es.map (decayEntity P c)) = groupScores es := by
  funext sid
  rw [groupScores, groupScores, flatPersps_map_decay]

theorem normEntitiesGo_map_decay (P : EngineParams) (c : RankingConfig) (m : String)
    (gs : String → List ℚ) :
    ∀ pre es, normEntitiesGo P m gs pre (es.map (decayEntity P c))
      = (normEntitiesGo P m gs pre es).map (decayEntity P c) := by
  intro pre es
  induction es generalizing pre with
  | nil => rfl
  | cons e es ih =>
    rw [List.map_cons, normEntitiesGo, normEntitiesGo, List.map_cons]
    have hp : (decayEntity P c e).perspectives = e.perspectives := rfl
    rw [hp, ih]
    rfl

theorem normalize_map_decay (P : EngineParams) (c : RankingConfig) (m : String)
    (es : List Entity) :
    normalize_scores_by_space P (es.map (decayEntity P c)) m
      = (normalize_scores_by_space P es m).map (List.map (decayEntity P c)) := by
  rw [normalize_scores_by_space, normalize_scores_by_space, flatPersps_map_decay]
  split
  · rfl
  · rw [groupScores_map_decay, normEntitiesGo_map_decay]
    rfl

theorem entityNormalized_decay (P : EngineParams) (c : RankingConfig)
    (ss : List Space) (e : Entity) :
    entityNormalized ss (decayEntity P c e) = decayEntity P c (entityNormalized ss e) := by
  unfold entityNormalized
  have hp : (decayEntity P c e).perspectives = e.perspectives := rfl
  rw [hp]
  split <;> rfl

theorem rankFinalize_map_decay (P : EngineParams) (c : RankingConfig)
    (so : Option (List Space)) (n : List Entity) :
    rankFinalize so (n.map (decayEntity P c)) = (rankFinalize so n).map (decayEntity P c) := by
  unfold rankFinalize
  cases so with
  | none =>
    dsimp only
    have h1 : List.map (fun e : Entity => { e with normalized_score := 0 })
          (List.map (decayEntity P c) n)
        = List.map (decayEntity P c)
            (List.map (fun e : Entity => { e with normalized_score := 0 }) n) := by
      rw [List.map_map, List.map_map]
      rfl
    rw [h1, isortD_map]
    rfl
  | some ss =>
    dsimp only
    have hcomp : (entityNormalized ss ∘ decayEntity P c)
        = (decayEntity P c ∘ entityNormalized ss) :=
      funext (entityNormalized_decay P c ss)
    have h1 : List.map (entityNormalized ss) (List.map (decayEntity P c) n)
        = List.map (decayEntity P c) (List.map (entityNormalized ss) n) := by
      rw [List.map_map, List.map_map, hcomp]
    rw [h1, isortD_map]
    rfl

theorem rankNormalized_decay (P : EngineParams) (cfg : RankingConfig) (X : List Entity) :
    rankNormalized P { cfg with use_time_decay := true }
        (X.map (decayEntity P { cfg with use_time_decay := true }))
      = (rankNormalized P { cfg with use_time_decay := false } X).map
          (List.map (decayEntity P { cfg with use_time_decay := true })) := by
  rw [rankNormalized, rankNormalized]
  have hns : ({ cfg with use_time_decay := true } : RankingConfig).normalize_scores
      = ({ cfg with use_time_decay := false } : RankingConfig).normalize_scores := rfl
  rw [hns]
  split
  · have hm : ({ cfg with use_time_decay := true } : RankingConfig).normalization_method
        = ({ cfg with use_time_decay := false } : RankingConfig).normalization_method := rfl
    rw [hm, normalize_map_decay]
  · rfl

theorem rank_tail_decay (P : EngineParams) (cfg : RankingConfig)
    (so : Option (List Space)) (pv : List Vote) (users : List User)
    (entities : List Entity) :
    ((rankNormalized P { cfg with use_time_decay := false }
        (rankPrepared P { cfg with use_time_decay := false } pv users entities)).map
      (rankFinalize so)).map (List.map (fun e => (e.id, e.normalized_score)))
    = ((rankNormalized P { cfg with use_time_decay := true }
        (rankPrepared P { cfg with use_time_decay := true } pv users entities)).map
      (rankFinalize so)).map (List.map (fun e => (e.id, e.normalized_score))) := by
  have hprep : rankPrepared P { cfg with use_time_decay := true } pv users entities
      = (rankPrepared P { cfg with use_time_decay := false } pv users entities).map
        (decayEntity P { cfg with use_time_decay := true }) := rfl
  rw [hprep, rankNormalized_decay]
  cases hE : rankNormalized P { cfg with use_time_decay := false }
      (rankPrepared P { cfg with use_time_decay := false } pv users entities) with
  | error msg => rfl
  | ok n =>
    show Except.ok ((rankFinalize so n).map (fun e => (e.id, e.normalized_score)))
        = Except.ok (((rankFinalize so (n.map (decayEntity P { cfg with use_time_decay := true }))).map
            (fun e => (e.id, e.normalized_score))))
    rw [rankFinalize_map_decay, List.map_map]
    rfl

/-- Claim C3: flipping `use_time_decay` (all other options equal) changes
neither the `normalized_score` values nor the output order of `rank_entities`:
decay rescales only `entity.raw_score`, which nothing downstream of step 3
reads, and the stable sort keys are the recomputed `normalized_score`s. -/
theorem C3_time_decay_no_ranking_effect (P : EngineParams) (cfg : RankingConfig)
    (root : String) (entities : List Entity) (votes : List Vote)
    (users : List User) (spaces : Option (List Space)) :
    (rank_entities P { cfg with use_time_decay := false } root entities votes users spaces).map
        (List.map (fun e => (e.id, e.normalized_score)))
      = (rank_entities P { cfg with use_time_decay := true } root entities votes users spaces).map
        (List.map (fun e => (e.id, e.normalized_score))) := by
  rw [rank_entities, rank_entities]
  exact rank_tail_decay P cfg _ _ users entities


/-! ### The distance oracle: BFS correctness and the C8 properties -/
theorem reachIn_zero (adj : List (String × List String)) (s t : String) :
    reachIn adj s 0 t ↔ s = t := by
  constructor
  · rintro ⟨l, hl, hp⟩
    rw [List.length_eq_zero] at hl
    subst hl
    exact hp
  · rintro rfl
    exact ⟨[], rfl, rfl⟩

theorem distEq_self (adj : List (String × List String)) (s : String) :
    distEq adj s s 0 :=
  ⟨(reachIn_zero adj s s).mpr rfl, fun m hm => absurd hm (Nat.not_lt_zero m)⟩

theorem reachIn_succ_front (adj : List (String × List String)) (s : String) (n : ℕ) (t : String) :
    reachIn adj s (n + 1) t ↔ ∃ u ∈ alGet adj s, reachIn adj u n t := by
  constructor
  · rintro ⟨l, hl, hp⟩
    cases l with
    | nil => cases hl
    | cons u rest =>
      obtain ⟨hu, hrest⟩ := hp
      exact ⟨u, hu, rest, by simpa using hl, hrest⟩
  · rintro ⟨u, hu, l, hl, hp⟩
    exact ⟨u :: l, by simp [hl], hu, hp⟩

theorem isPath_snoc (adj : List (String × List String)) :
    ∀ (l : List String) (s u v : String), isPath adj s l u → v ∈ alGet adj u →
      isPath adj s (l ++ [v]) v := by
  intro l
  induction l with
  | nil =>
    intro s u v hp hv
    rw [isPath] at hp
    subst hp
    exact ⟨hv, rfl⟩
  | cons w rest ih =>
    intro s u v hp hv
    obtain ⟨hw, hrest⟩ := hp
    exact ⟨hw, ih w u v hrest hv⟩

theorem reachIn_snoc (adj : List (String × List String)) (s u v : String) (n : ℕ)
    (h : reachIn adj s n u) (hv : v ∈ alGet adj u) : reachIn adj s (n + 1) v := by
  obtain ⟨l, hl, hp⟩ := h
  exact ⟨l ++ [v], by simp [hl], isPath_snoc adj l s u v hp hv⟩

theorem reachIn_succ_back (adj : List (String × List String)) (s : String) :
    ∀ (n : ℕ) (t : String), reachIn adj s (n + 1) t ↔ ∃ u, reachIn adj s n u ∧ t ∈ alGet adj u := by
  intro n
  induction n generalizing s with
  | zero =>
    intro t
    constructor
    · intro h
      obtain ⟨u, hu, hr⟩ := (reachIn_succ_front adj s 0 t).mp h
      rw [reachIn_zero] at hr
      subst hr
      exact ⟨s, (reachIn_zero adj s s).mpr rfl, hu⟩
    · rintro ⟨u, hu, ht⟩
      rw [reachIn_zero] at hu
      subst hu
      exact (reachIn_succ_front adj s 0 t).mpr ⟨t, ht, (reachIn_zero adj t t).mpr rfl⟩
  | succ n ih =>
    intro t
    constructor
    · intro h
      obtain ⟨u, hu, hr⟩ := (reachIn_succ_front adj s (n + 1) t).mp h
      obtain ⟨w, hw, ht⟩ := (ih u t).mp hr
      exact ⟨w, (reachIn_succ_front adj s n w).mpr ⟨u, hu, hw⟩, ht⟩
    · rintro ⟨u, hu, ht⟩
      obtain ⟨w, hw, hru⟩ := (reachIn_succ_front adj s n u).mp hu
      exact (reachIn_succ_front adj s (n + 1) t).mpr ⟨w, hw, (ih w t).mpr ⟨u, hru, ht⟩⟩

theorem isPath_append (adj : List (String × List String)) :
    ∀ (l1 l2 : List String) (s u t : String), isPath adj s l1 u → isPath adj u l2 t →
      isPath adj s (l1 ++ l2) t := by
  intro l1
  induction l1 with
  | nil =>
    intro l2 s u t h1 h2
    rw [isPath] at h1
    subst h1
    exact h2
  | cons w rest ih =>
    intro l2 s u t h1 h2
    obtain ⟨hw, hrest⟩ := h1
    exact ⟨hw, ih l2 w u t hrest h2⟩

theorem reachIn_trans (adj : List (String × List String)) (s u t : String) (a b : ℕ)
    (h1 : reachIn adj s a u) (h2 : reachIn adj u b t) : reachIn adj s (a + b) t := by
  obtain ⟨l1, hl1, hp1⟩ := h1
  obtain ⟨l2, hl2, hp2⟩ := h2
  exact ⟨l1 ++ l2, by simp [hl1, hl2], isPath_append adj l1 l2 s u t hp1 hp2⟩

theorem reachIn_split (adj : List (String × List String)) :
    ∀ (m k : ℕ) (s t : String), reachIn adj s (m + k) t →
      ∃ u, reachIn adj s m u ∧ reachIn adj u k t := by
  intro m k
  induction k generalizing m with
  | zero =>
    intro s t h
    exact ⟨t, h, (reachIn_zero adj t t).mpr rfl⟩
  | succ k ih =>
    intro s t h
    rw [show m + (k + 1) = (m + k) + 1 from rfl, reachIn_succ_back] at h
    obtain ⟨u, hu, ht⟩ := h
    obtain ⟨w, hw, hwk⟩ := ih m s u hu
    exact ⟨w, hw, reachIn_snoc adj w u t k hwk ht⟩

theorem distEq_unique (adj : List (String × List String)) (s t : String) (d1 d2 : ℕ)
    (h1 : distEq adj s t d1) (h2 : distEq adj s t d2) : d1 = d2 := by
  rcases Nat.lt_trichotomy d1 d2 with h | h | h
  · exact absurd h1.1 (h2.2 d1 h)
  · exact h
  · exact absurd h2.1 (h1.2 d2 h)

theorem reachIn_least (adj : List (String × List String)) (s t : String) (n : ℕ)
    (h : reachIn adj s n t) : ∃ d ≤ n, distEq adj s t d := by
  classical
  have hex : ∃ m, reachIn adj s m t := ⟨n, h⟩
  exact ⟨Nat.find hex, Nat.find_min' hex h,
    Nat.find_spec hex, fun m hm => Nat.find_min hex hm⟩

theorem distEq_pred (adj : List (String × List String)) (s x : String) (n : ℕ)
    (h : distEq adj s x (n + 1)) : ∃ u, distEq adj s u n ∧ x ∈ alGet adj u := by
  obtain ⟨u, hu, hx⟩ := (reachIn_succ_back adj s n x).mp h.1
  obtain ⟨d, hd, hdist⟩ := reachIn_least adj s u n hu
  rcases eq_or_lt_of_le hd with rfl | hlt
  · exact ⟨u, hdist, hx⟩
  · exact absurd (reachIn_snoc adj s u x d hdist.1 hx) (h.2 (d + 1) (Nat.succ_lt_succ hlt))

theorem distEq_trunc (adj : List (String × List String)) (s v : String) (d m : ℕ)
    (h : distEq adj s v d) (hm : m ≤ d) : ∃ x, distEq adj s x m := by
  obtain ⟨k, rfl⟩ := Nat.exists_eq_add_of_le hm
  obtain ⟨u, hu, hk⟩ := reachIn_split adj m k s v h.1
  obtain ⟨d2, hd2, hdist⟩ := reachIn_least adj s u m hu
  rcases eq_or_lt_of_le hd2 with rfl | hlt
  · exact ⟨u, hdist⟩
  · exact absurd (reachIn_trans adj s u v d2 k hdist.1 hk) (h.2 (d2 + k) (by omega))

theorem reachIn_symm (adj : List (String × List String))
    (hsym : ∀ a b, b ∈ alGet adj a → a ∈ alGet adj b) :
    ∀ (n : ℕ) (s t : String), reachIn adj s n t → reachIn adj t n s := by
  intro n
  induction n with
  | zero =>
    intro s t h
    rw [reachIn_zero] at h ⊢
    exact h.symm
  | succ n ih =>
    intro s t h
    obtain ⟨u, hu, hr⟩ := (reachIn_succ_front adj s n t).mp h
    exact reachIn_snoc adj t u s n (ih u t hr) (hsym s u hu)

theorem distEq_symm (adj : List (String × List String))
    (hsym : ∀ a b, b ∈ alGet adj a → a ∈ alGet adj b)
    (s t : String) (d : ℕ) (h : distEq adj s t d) : distEq adj t s d :=
  ⟨reachIn_symm adj hsym d s t h.1,
   fun m hm hr => h.2 m hm (reachIn_symm adj hsym m t s hr)⟩

theorem lookup_append {β : Type} (x : String) (l1 l2 : List (String × β)) :
    List.lookup x (l1 ++ l2) = (List.lookup x l1).or (List.lookup x l2) := by
  induction l1 with
  | nil => simp [List.lookup]
  | cons kv rest ih =>
    obtain ⟨k, v⟩ := kv
    rw [List.cons_append, List.lookup, List.lookup]
    cases hbe : (x == k) with
    | true => rfl
    | false => exact ih

theorem lookup_mapUpdate (k v x : String) :
    ∀ al : List (String × List String),
      List.lookup x (al.map (fun kv => if kv.1 == k then (kv.1, kv.2 ++ [v]) else kv))
        = if x = k then (List.lookup x al).map (fun l => l ++ [v]) else List.lookup x al := by
  intro al
  induction al with
  | nil => simp [List.lookup]
  | cons kv rest ih =>
    obtain ⟨k1, v1⟩ := kv
    by_cases h1 : k1 = k
    · subst h1
      rw [List.map_cons, if_pos (beq_self_eq_true k1)]
      by_cases hx : x = k1
      · subst hx
        rw [List.lookup, List.lookup]
        simp
      · rw [List.lookup, List.lookup]
        have : (x == k1) = false := beq_eq_false_iff_ne.mpr hx
        rw [this]
        simp only [ih, if_neg hx]
    · rw [List.map_cons, if_neg (by simpa using h1)]
      by_cases hx : x = k1
      · subst hx
        rw [List.lookup, List.lookup]
        simp only [beq_self_eq_true]
        rw [if_neg h1]
      · rw [List.lookup, List.lookup]
        have hb : (x == k1) = false := beq_eq_false_iff_ne.mpr hx
        rw [hb]
        exact ih

theorem alGet_alAppend (al : List (String × List String)) (k v x : String) :
    alGet (alAppend al k v) x = if x = k then alGet al k ++ [v] else alGet al x := by
  rw [alAppend]
  split
  next hsome =>
    rw [alGet, lookup_mapUpdate]
    by_cases hx : x = k
    · subst hx
      rw [if_pos rfl, if_pos rfl, alGet]
      obtain ⟨l, hl⟩ := Option.isSome_iff_exists.mp hsome
      rw [hl]
      rfl
    · rw [if_neg hx, if_neg hx, alGet]
  next hnone =>
    rw [alGet, lookup_append]
    by_cases hx : x = k
    · subst hx
      have h0 : List.lookup x al = none := Option.not_isSome_iff_eq_none.mp hnone
      rw [h0, alGet, h0]
      simp [List.lookup]
    · rw [if_neg hx, alGet]
      have h2 : List.lookup x [(k, [v])] = none := by
        rw [List.lookup]
        rw [beq_eq_false_iff_ne.mpr hx]
        rfl
      rw [h2]
      cases List.lookup x al <;> rfl

theorem alGet_ensureKey (al : List (String × List String)) (k x : String) :
    alGet (ensureKey al k) x = alGet al x := by
  rw [ensureKey]
  split
  · rfl
  next hnone =>
    rw [alGet, lookup_append]
    by_cases hx : x = k
    · subst hx
      have h0 : List.lookup x al = none := Option.not_isSome_iff_eq_none.mp hnone
      rw [h0, alGet, h0]
      simp [List.lookup]
    · have h2 : List.lookup x [(k, ([] : List String))] = none := by
        rw [List.lookup]
        rw [beq_eq_false_iff_ne.mpr hx]
        rfl
      rw [h2, alGet]
      cases List.lookup x al <;> rfl

theorem mem_alGet_addSpaceEdges (al : List (String × List String)) (sp : Space)
    (x y : String) :
    y ∈ alGet (addSpaceEdges al sp) x ↔
      y ∈ alGet al x ∨ (sp.parent_space_id = some y ∧ x = sp.id) ∨
        (sp.parent_space_id = some x ∧ y = sp.id) := by
  rw [addSpaceEdges]
  cases hp : sp.parent_space_id with
  | none =>
    rw [alGet_ensureKey]
    simp
  | some p =>
    rw [alGet_alAppend]
    by_cases h1 : x = sp.id
    · rw [if_pos h1, alGet_alAppend]
      by_cases h2 : sp.id = p
      · rw [if_pos h2, alGet_ensureKey, alGet_ensureKey]
        simp only [List.mem_append, List.mem_singleton, Option.some.injEq]
        subst h1
        aesop
      · rw [if_neg h2, alGet_ensureKey, alGet_ensureKey]
        simp only [List.mem_append, List.mem_singleton, Option.some.injEq]
        subst h1
        aesop
    · rw [if_neg h1, alGet_alAppend]
      by_cases h2 : x = p
      · rw [if_pos h2, alGet_ensureKey, alGet_ensureKey]
        simp only [List.mem_append, List.mem_singleton, Option.some.injEq]
        subst h2
        aesop
      · rw [if_neg h2, alGet_ensureKey, alGet_ensureKey]
        simp only [Option.some.injEq]
        aesop

theorem mem_alGet_foldl (L : List Space) :
    ∀ (al : List (String × List String)) (x y : String),
      y ∈ alGet (List.foldl addSpaceEdges al L) x ↔
        y ∈ alGet al x ∨ ∃ sp ∈ L, (sp.parent_space_id = some y ∧ x = sp.id) ∨
          (sp.parent_space_id = some x ∧ y = sp.id) := by
  induction L with
  | nil => intro al x y; simp
  | cons sp L ih =>
    intro al x y
    rw [List.foldl_cons, ih, mem_alGet_addSpaceEdges]
    simp only [List.mem_cons]
    constructor
    · rintro ((hy | hsp) | ⟨sp2, hsp2, hor⟩)
      · exact Or.inl hy
      · exact Or.inr ⟨sp, Or.inl rfl, hsp⟩
      · exact Or.inr ⟨sp2, Or.inr hsp2, hor⟩
    · rintro (hy | ⟨sp2, (rfl | hsp2), hor⟩)
      · exact Or.inl (Or.inl hy)
      · exact Or.inl (Or.inr hor)
      · exact Or.inr ⟨sp2, hsp2, hor⟩

theorem mem_buildAdjacency (spaces : List Space) (x y : String) :
    y ∈ alGet (buildAdjacency spaces) x ↔
      ∃ sp ∈ spaces, (sp.parent_space_id = some y ∧ x = sp.id) ∨
        (sp.parent_space_id = some x ∧ y = sp.id) := by
  rw [buildAdjacency, mem_alGet_foldl]
  have h0 : alGet [] x = [] := rfl
  rw [h0]
  simp

theorem buildAdjacency_symm (spaces : List Space) :
    ∀ a b, b ∈ alGet (buildAdjacency spaces) a → a ∈ alGet (buildAdjacency spaces) b := by
  intro a b h
  rw [mem_buildAdjacency] at h ⊢
  obtain ⟨sp, hsp, h1 | h2⟩ := h
  · exact ⟨sp, hsp, Or.inr ⟨h1.1, h1.2⟩⟩
  · exact ⟨sp, hsp, Or.inl ⟨h2.1, h2.2⟩⟩

theorem lookup_mem {α β : Type} [BEq α] [LawfulBEq α] (k : α) (v : β) :
    ∀ l : List (α × β), List.lookup k l = some v → (k, v) ∈ l := by
  intro l
  induction l with
  | nil => intro h; cases h
  | cons kv rest ih =>
    obtain ⟨k1, v1⟩ := kv
    intro h
    rw [List.lookup] at h
    cases hbe : (k == k1) with
    | true =>
      rw [hbe] at h
      have hk := beq_iff_eq.mp hbe
      have hv := Option.some.inj h
      subst hk
      rw [← hv]
      exact List.mem_cons_self _ _
    | false =>
      rw [hbe] at h
      exact List.mem_cons_of_mem _ (ih h)

theorem mem_allTargets (adj : List (String × List String)) (c n : String)
    (h : n ∈ alGet adj c) : n ∈ allTargets adj := by
  rw [alGet] at h
  cases hl : List.lookup c adj with
  | none => rw [hl] at h; cases h
  | some l =>
    rw [hl] at h
    rw [allTargets, List.mem_toFinset, List.mem_flatten]
    exact ⟨l, List.mem_map.mpr ⟨(c, l), lookup_mem c l adj hl, rfl⟩, h⟩

theorem expand_spec (d : ℕ) :
    ∀ (L V : List String) (Q : List (String × ℕ)),
      ∃ new : List String,
        (L.foldl (fun st n => if n ∈ st.1 then st else (n :: st.1, st.2 ++ [(n, d + 1)])) (V, Q)).2
          = Q ++ new.map (fun n => (n, d + 1)) ∧
        (∀ x, x ∈ (L.foldl (fun st n => if n ∈ st.1 then st else (n :: st.1, st.2 ++ [(n, d + 1)])) (V, Q)).1
          ↔ x ∈ V ∨ x ∈ L) ∧
        new.Nodup ∧ (∀ x, x ∈ new ↔ x ∈ L ∧ x ∉ V) := by
  intro L
  induction L with
  | nil =>
    intro V Q
    exact ⟨[], by simp, by simp, List.nodup_nil, by simp⟩
  | cons n L ih =>
    intro V Q
    rw [List.foldl_cons]
    by_cases hn : n ∈ V
    · rw [if_pos hn]
      obtain ⟨new, h1, h2, h3, h4⟩ := ih V Q
      refine ⟨new, h1, ?_, h3, ?_⟩
      · intro x
        rw [h2]
        constructor
        · rintro (hx | hx)
          · exact Or.inl hx
          · exact Or.inr (List.mem_cons_of_mem n hx)
        · rintro (hx | hx)
          · exact Or.inl hx
          · rcases List.mem_cons.mp hx with rfl | hx2
            · exact Or.inl hn
            · exact Or.inr hx2
      · intro x
        rw [h4]
        constructor
        · rintro ⟨hx, hxv⟩
          exact ⟨List.mem_cons_of_mem n hx, hxv⟩
        · rintro ⟨hx, hxv⟩
          rcases List.mem_cons.mp hx with rfl | hx2
          · exact absurd hn hxv
          · exact ⟨hx2, hxv⟩
    · rw [if_neg hn]
      obtain ⟨new, h1, h2, h3, h4⟩ := ih (n :: V) (Q ++ [(n, d + 1)])
      have hnnew : n ∉ new := by
        intro hmem
        exact ((h4 n).mp hmem).2 (List.mem_cons_self n V)
      refine ⟨n :: new, ?_, ?_, List.nodup_cons.mpr ⟨hnnew, h3⟩, ?_⟩
      · dsimp only
        rw [h1, List.append_assoc]
        rfl
      · intro x
        dsimp only
        rw [h2]
        constructor
        · rintro (hx | hx)
          · rcases List.mem_cons.mp hx with rfl | hx2
            · exact Or.inr (List.mem_cons_self x L)
            · exact Or.inl hx2
          · exact Or.inr (List.mem_cons_of_mem n hx)
        · rintro (hx | hx)
          · exact Or.inl (List.mem_cons_of_mem n hx)
          · rcases List.mem_cons.mp hx with rfl | hx2
            · exact Or.inl (List.mem_cons_self x V)
            · exact Or.inr hx2
      · intro x
        rw [List.mem_cons, h4]
        constructor
        · rintro (rfl | ⟨hx, hxv⟩)
          · exact ⟨List.mem_cons_self x L, hn⟩
          · refine ⟨List.mem_cons_of_mem n hx, ?_⟩
            intro hv
            exact hxv (List.mem_cons_of_mem n hv)
        · rintro ⟨hx, hxv⟩
          rcases List.mem_cons.mp hx with rfl | hx2
          · exact Or.inl rfl
          · by_cases hxn : x = n
            · exact Or.inl hxn
            · refine Or.inr ⟨hx2, ?_⟩
              intro hv
              rcases List.mem_cons.mp hv with h5 | h5
              · exact hxn h5
              · exact hxv h5

theorem bfsInv_terminal (adj : List (String × List String)) (maxD : ℕ) (s : String)
    (k : ℕ) (V : List String) (R : List ((String × String) × ℕ))
    (inv : BfsInv adj maxD s k [] [] V R) :
    ∀ v d, distEq adj s v d → d ≤ maxD → ((s, v), d) ∈ R := by
  intro v d hd hdm
  by_cases hk : d ≤ k
  · have hv := inv.covered v d hd hk hdm
    rw [inv.disc] at hv
    rcases hv with ⟨d2, hd2⟩ | hq
    · have hs := inv.soundR v d2 hd2
      have he : d = d2 := distEq_unique adj s v d d2 hd hs.1
      rw [he]
      exact hd2
    · simp at hq
  · have hdk : k < d := Nat.lt_of_not_le hk
    have hkm : k < maxD := lt_of_lt_of_le hdk hdm
    obtain ⟨x, hx⟩ := distEq_trunc adj s v d (k + 1) hd hdk
    rcases inv.frontier hkm x hx with hB | ⟨w, hw, -⟩
    · simp at hB
    · simp at hw

theorem bfsInv_reindex (adj : List (String × List String)) (maxD : ℕ) (s : String)
    (k : ℕ) (B : List (String × ℕ)) (V : List String)
    (R : List ((String × String) × ℕ))
    (inv : BfsInv adj maxD s k [] B V R) :
    BfsInv adj maxD s (k + 1) B [] V R := by
  obtain ⟨qA, qB, keys, disc, ndR, ndQ, disj, soundR, soundQ, covered, frontier⟩ := inv
  have covered2 : ∀ x m, distEq adj s x m → m ≤ k + 1 → m ≤ maxD → x ∈ V := by
    intro x m hd hm hmm2
    rcases eq_or_lt_of_le hm with rfl | hlt
    · have hkm : k < maxD := by omega
      rcases frontier hkm x hd with hB | ⟨v, hv, -⟩
      · rw [disc]
        exact Or.inr (by simpa using hB)
      · simp at hv
    · exact covered x m hd (by omega) hmm2
  refine ⟨qB, ?_, keys, ?_, ndR, ?_, ?_, ?_, ?_, covered2, ?_⟩
  · intro p hp
    cases hp
  · intro x
    rw [disc]
    simp
  · simpa using ndQ
  · intro v hv
    have := disj v hv
    simpa using this
  · intro v d h
    obtain ⟨hs1, hs2, hs3⟩ := soundR v d h
    exact ⟨hs1, hs2, by omega⟩
  · intro p hp
    exact soundQ p (by simpa using hp)
  · intro hk1 x hd
    obtain ⟨p, hpd, hx⟩ := distEq_pred adj s x (k + 1) hd
    have hpV : p ∈ V := covered2 p (k + 1) hpd (le_refl _) (by omega)
    rw [disc] at hpV
    rcases hpV with ⟨d2, hd2⟩ | hq
    · have hs := soundR p d2 hd2
      have he : d2 = k + 1 := distEq_unique adj s p d2 (k + 1) hs.1 hpd
      omega
    · right
      exact ⟨p, by simpa using hq, hx⟩

theorem bfsInv_pop_noexpand (adj : List (String × List String)) (maxD : ℕ)
    (s c : String) (k : ℕ) (A' B : List (String × ℕ)) (V : List String)
    (R : List ((String × String) × ℕ))
    (inv : BfsInv adj maxD s k ((c, k) :: A') B V R) (hk : maxD ≤ k) :
    BfsInv adj maxD s k A' B V (R ++ [((s, c), k)]) := by
  obtain ⟨qA, qB, keys, disc, ndR, ndQ, disj, soundR, soundQ, covered, frontier⟩ := inv
  have hcq : ((c, k) : String × ℕ) ∈ ((c, k) :: A') ++ B := List.mem_cons_self _ _
  have hcdist := soundQ (c, k) hcq
  have hcnodes : c ∈ (((c, k) :: A') ++ B).map Prod.fst := List.mem_cons_self _ _
  have hnodes : ∀ x, x ∈ (((c, k) :: A') ++ B).map Prod.fst ↔
      x = c ∨ x ∈ (A' ++ B).map Prod.fst := fun x => List.mem_cons
  have hcRk : c ∉ R.map (fun r => r.1.2) := fun h => disj c h hcnodes
  have hndQ2 := List.nodup_cons.mp (show (c :: (A' ++ B).map Prod.fst).Nodup from ndQ)
  have hrec : ∀ x d, ((s, x), d) ∈ R ++ [((s, c), k)] ↔
      ((s, x), d) ∈ R ∨ (x = c ∧ d = k) := by
    intro x d
    rw [List.mem_append, List.mem_singleton]
    constructor
    · rintro (h | h)
      · exact Or.inl h
      · exact Or.inr ⟨congrArg (fun r => r.1.2) h, congrArg Prod.snd h⟩
    · rintro (h | ⟨h1, h2⟩)
      · exact Or.inl h
      · subst h1
        subst h2
        exact Or.inr rfl
  refine ⟨fun p hp => qA p (List.mem_cons_of_mem _ hp), qB, ?_, ?_, ?_, hndQ2.2, ?_, ?_,
    fun p hp => soundQ p (List.mem_cons_of_mem _ hp), covered, ?_⟩
  · intro r hr
    rcases List.mem_append.mp hr with h | h
    · exact keys r h
    · rw [List.mem_singleton.mp h]
  · intro x
    rw [disc, hnodes x]
    simp only [hrec]
    constructor
    · rintro (⟨d, hd⟩ | (rfl | hrest))
      · exact Or.inl ⟨d, Or.inl hd⟩
      · exact Or.inl ⟨k, Or.inr ⟨rfl, rfl⟩⟩
      · exact Or.inr hrest
    · rintro (⟨d, hd | ⟨rfl, rfl⟩⟩ | hrest)
      · exact Or.inl ⟨d, hd⟩
      · exact Or.inr (Or.inl rfl)
      · exact Or.inr (Or.inr hrest)
  · rw [List.map_append]
    refine List.Nodup.append ndR (List.nodup_singleton c) ?_
    intro a ha hb
    simp only [List.map_cons, List.map_nil, List.mem_singleton] at hb
    subst hb
    exact hcRk ha
  · intro v hv hq
    rw [List.map_append] at hv
    rcases List.mem_append.mp hv with h | h
    · exact disj v h ((hnodes v).mpr (Or.inr hq))
    · rw [List.mem_singleton.mp h] at hq
      exact hndQ2.1 hq
  · intro v d hvd
    rcases (hrec v d).mp hvd with h | ⟨h1, h2⟩
    · exact soundR v d h
    · subst h1
      subst h2
      exact ⟨hcdist.1, hcdist.2, le_refl _⟩
  · intro h
    exact absurd h (by omega)

theorem bfsInv_pop_expand (adj : List (String × List String)) (maxD : ℕ)
    (s c : String) (k : ℕ) (A' B : List (String × ℕ)) (V V2 : List String)
    (R : List ((String × String) × ℕ)) (new : List String)
    (inv : BfsInv adj maxD s k ((c, k) :: A') B V R) (hk : k < maxD)
    (hndnew : new.Nodup)
    (hmemnew : ∀ x, x ∈ new ↔ x ∈ alGet adj c ∧ x ∉ V)
    (hV2 : ∀ x, x ∈ V2 ↔ x ∈ V ∨ x ∈ alGet adj c) :
    BfsInv adj maxD s k A' (B ++ new.map (fun n => (n, k + 1))) V2
      (R ++ [((s, c), k)]) := by
  obtain ⟨qA, qB, keys, disc, ndR, ndQ, disj, soundR, soundQ, covered, frontier⟩ := inv
  have hcq : ((c, k) : String × ℕ) ∈ ((c, k) :: A') ++ B := List.mem_cons_self _ _
  have hcdist := soundQ (c, k) hcq
  have hcnodes : c ∈ (((c, k) :: A') ++ B).map Prod.fst := List.mem_cons_self _ _
  have hnodes : ∀ x, x ∈ (((c, k) :: A') ++ B).map Prod.fst ↔
      x = c ∨ x ∈ (A' ++ B).map Prod.fst := fun x => List.mem_cons
  have hcRk : c ∉ R.map (fun r => r.1.2) := fun h => disj c h hcnodes
  have hndQ2 := List.nodup_cons.mp (show (c :: (A' ++ B).map Prod.fst).Nodup from ndQ)
  have hrec : ∀ x d, ((s, x), d) ∈ R ++ [((s, c), k)] ↔
      ((s, x), d) ∈ R ∨ (x = c ∧ d = k) := by
    intro x d
    rw [List.mem_append, List.mem_singleton]
    constructor
    · rintro (h | h)
      · exact Or.inl h
      · exact Or.inr ⟨congrArg (fun r => r.1.2) h, congrArg Prod.snd h⟩
    · rintro (h | ⟨h1, h2⟩)
      · exact Or.inl h
      · subst h1
        subst h2
        exact Or.inr rfl
  have hnewfst : (new.map (fun n => (n, k + 1))).map Prod.fst = new := by
    rw [List.map_map]
    exact List.map_id new
  have hV2new : ∀ x, x ∈ V2 ↔ x ∈ V ∨ x ∈ new := by
    intro x
    rw [hV2]
    constructor
    · rintro (h | h)
      · exact Or.inl h
      · by_cases hv : x ∈ V
        · exact Or.inl hv
        · exact Or.inr ((hmemnew x).mpr ⟨h, hv⟩)
    · rintro (h | h)
      · exact Or.inl h
      · exact Or.inr ((hmemnew x).mp h).1
  have hnewdist : ∀ x ∈ new, distEq adj s x (k + 1) := by
    intro x hx
    obtain ⟨hxL, hxV⟩ := (hmemnew x).mp hx
    refine ⟨reachIn_snoc adj s c x k hcdist.1.1 hxL, ?_⟩
    intro m hm hr
    obtain ⟨d2, hd2le, hd2⟩ := reachIn_least adj s x m hr
    exact hxV (covered x d2 hd2 (by omega) (by omega))
  have hVnodes : ∀ x, x ∈ (((c, k) :: A') ++ B).map Prod.fst → x ∈ V := by
    intro x hx
    rw [disc]
    exact Or.inr hx
  have hRkV : ∀ v, v ∈ R.map (fun r => r.1.2) → v ∈ V := by
    intro v hv
    obtain ⟨r, hr, hrv⟩ := List.mem_map.mp hv
    rw [disc]
    refine Or.inl ⟨r.2, ?_⟩
    have hr1 : r.1.1 = s := keys r hr
    have : ((s, v), r.2) = r := by
      rw [← hrv, ← hr1]
    rw [this]
    exact hr
  have hnodes2 : ∀ x, x ∈ (A' ++ (B ++ new.map (fun n => (n, k + 1)))).map Prod.fst ↔
      x ∈ (A' ++ B).map Prod.fst ∨ x ∈ new := by
    intro x
    simp only [List.map_append, List.mem_append, hnewfst]
    tauto
  refine ⟨fun p hp => qA p (List.mem_cons_of_mem _ hp), ?_, ?_, ?_, ?_, ?_, ?_, ?_, ?_, ?_, ?_⟩
  · intro p hp
    rcases List.mem_append.mp hp with h | h
    · exact qB p h
    · obtain ⟨n, -, hn⟩ := List.mem_map.mp h
      rw [← hn]
  · intro r hr
    rcases List.mem_append.mp hr with h | h
    · exact keys r h
    · rw [List.mem_singleton.mp h]
  · intro x
    rw [hV2new x, disc, hnodes x, hnodes2 x]
    simp only [hrec]
    constructor
    · rintro ((⟨d, hd⟩ | (rfl | hrest)) | hnew)
      · exact Or.inl ⟨d, Or.inl hd⟩
      · exact Or.inl ⟨k, Or.inr ⟨rfl, rfl⟩⟩
      · exact Or.inr (Or.inl hrest)
      · exact Or.inr (Or.inr hnew)
    · rintro (⟨d, hd | ⟨rfl, rfl⟩⟩ | (hrest | hnew))
      · exact Or.inl (Or.inl ⟨d, hd⟩)
      · exact Or.inl (Or.inr (Or.inl rfl))
      · exact Or.inl (Or.inr (Or.inr hrest))
      · exact Or.inr hnew
  · rw [List.map_append]
    refine List.Nodup.append ndR (List.nodup_singleton c) ?_
    intro a ha hb
    simp only [List.map_cons, List.map_nil, List.mem_singleton] at hb
    subst hb
    exact hcRk ha
  · have hpart : ((A' ++ (B ++ new.map (fun n => (n, k + 1)))).map Prod.fst)
        = (A' ++ B).map Prod.fst ++ new := by
      simp only [List.map_append, hnewfst, List.append_assoc]
    rw [hpart]
    refine List.Nodup.append hndQ2.2 hndnew ?_
    intro a ha hb
    exact ((hmemnew a).mp hb).2 (hVnodes a ((hnodes a).mpr (Or.inr ha)))
  · intro v hv hq
    rw [hnodes2 v] at hq
    rw [List.map_append] at hv
    rcases List.mem_append.mp hv with h | h
    · rcases hq with hq1 | hq2
      · exact disj v h ((hnodes v).mpr (Or.inr hq1))
      · exact ((hmemnew v).mp hq2).2 (hRkV v h)
    · rw [List.mem_singleton.mp h] at hq
      rcases hq with hq1 | hq2
      · exact hndQ2.1 hq1
      · exact ((hmemnew c).mp hq2).2 (hVnodes c hcnodes)
  · intro v d hvd
    rcases (hrec v d).mp hvd with h | ⟨h1, h2⟩
    · exact soundR v d h
    · subst h1
      subst h2
      exact ⟨hcdist.1, hcdist.2, le_refl _⟩
  · intro p hp
    rcases List.mem_append.mp hp with h | h
    · exact soundQ p (List.mem_cons_of_mem _ (List.mem_append.mpr (Or.inl h)))
    · rcases List.mem_append.mp h with h2 | h2
      · exact soundQ p (List.mem_cons_of_mem _ (List.mem_append.mpr (Or.inr h2)))
      · obtain ⟨n, hn, hnp⟩ := List.mem_map.mp h2
        rw [← hnp]
        exact ⟨hnewdist n hn, by omega⟩
  · intro x m hd hm hmm
    exact (hV2new x).mpr (Or.inl (covered x m hd hm hmm))
  · intro h x hd
    rcases frontier h x hd with hB | ⟨v, hv, hxv⟩
    · left
      rw [List.map_append]
      exact List.mem_append.mpr (Or.inl hB)
    · rcases List.mem_cons.mp hv with rfl | hv2
      · by_cases hxnew : x ∈ new
        · left
          rw [List.map_append, hnewfst]
          exact List.mem_append.mpr (Or.inr hxnew)
        · have hxV : x ∈ V := by
            by_contra hxV
            exact hxnew ((hmemnew x).mpr ⟨hxv, hxV⟩)
          rw [disc] at hxV
          rcases hxV with ⟨d2, hd2⟩ | hxn
          · have hs := soundR x d2 hd2
            have he : d2 = k + 1 := distEq_unique adj s x d2 (k + 1) hs.1 hd
            omega
          · rcases (hnodes x).mp hxn with rfl | hxr
            · have he : k = k + 1 := distEq_unique adj s x k (k + 1) hcdist.1 hd
              omega
            · rw [List.map_append] at hxr
              rcases List.mem_append.mp hxr with hxa | hxb
              · obtain ⟨p, hp, hpx⟩ := List.mem_map.mp hxa
                have hpk : p.2 = k := qA p (List.mem_cons_of_mem _ hp)
                have hps := soundQ p (List.mem_cons_of_mem _ (List.mem_append.mpr (Or.inl hp)))
                rw [hpx, hpk] at hps
                have he : k = k + 1 := distEq_unique adj s x k (k + 1) hps.1 hd
                omega
              · left
                rw [List.map_append]
                exact List.mem_append.mpr (Or.inl hxb)
      · right
        exact ⟨v, hv2, hxv⟩

theorem record_transfer (adj : List (String × List String)) (maxD : ℕ)
    (s c : String) (k : ℕ) (R OUT : List ((String × String) × ℕ))
    (hcR : ∀ d2, ((s, c), d2) ∉ R)
    (hdist : distEq adj s c k) (hkm : k ≤ maxD)
    (H : ∀ x, x ∈ OUT ↔ (x ∈ R ++ [((s, c), k)] ∨ ∃ v d, x = ((s, v), d) ∧
      distEq adj s v d ∧ d ≤ maxD ∧ ∀ d2, ((s, v), d2) ∉ R ++ [((s, c), k)])) :
    ∀ x, x ∈ OUT ↔ (x ∈ R ∨ ∃ v d, x = ((s, v), d) ∧ distEq adj s v d ∧
      d ≤ maxD ∧ ∀ d2, ((s, v), d2) ∉ R) := by
  intro x
  rw [H x]
  constructor
  · rintro (hR | ⟨v, d, rfl, hd, hdm, hnot⟩)
    · rcases List.mem_append.mp hR with h | h
      · exact Or.inl h
      · rw [List.mem_singleton.mp h]
        exact Or.inr ⟨c, k, rfl, hdist, hkm, hcR⟩
    · refine Or.inr ⟨v, d, rfl, hd, hdm, ?_⟩
      intro d2 hd2
      exact hnot d2 (List.mem_append.mpr (Or.inl hd2))
  · rintro (hR | ⟨v, d, rfl, hd, hdm, hnot⟩)
    · exact Or.inl (List.mem_append.mpr (Or.inl hR))
    · by_cases hvc : v = c
      · subst hvc
        have hdk : d = k := distEq_unique adj s v d k hd hdist
        subst hdk
        exact Or.inl (List.mem_append.mpr (Or.inr (List.mem_singleton.mpr rfl)))
      · refine Or.inr ⟨v, d, rfl, hd, hdm, ?_⟩
        intro d2 hd2
        rcases List.mem_append.mp hd2 with h | h
        · exact hnot d2 h
        · exact hvc (congrArg (fun r => r.1.2) (List.mem_singleton.mp h))

theorem bfs_main (adj : List (String × List String)) (maxD : ℕ) (s : String) :
    ∀ (fuel k : ℕ) (A B : List (String × ℕ)) (V : List String)
      (R : List ((String × String) × ℕ)),
      BfsInv adj maxD s k A B V R →
      (A ++ B).length + 2 * ((allTargets adj) \ V.toFinset).card ≤ fuel →
      ∀ x, x ∈ bfsLoop adj maxD s fuel (A ++ B) V R ↔
        (x ∈ R ∨ ∃ v d, x = ((s, v), d) ∧ distEq adj s v d ∧ d ≤ maxD ∧
          ∀ d2, ((s, v), d2) ∉ R) := by
  intro fuel
  induction fuel with
  | zero =>
    intro k A B V R inv hfuel x
    have hlen : (A ++ B).length = 0 := by omega
    obtain ⟨rfl, rfl⟩ := List.append_eq_nil.mp (List.length_eq_zero.mp hlen)
    show x ∈ R ↔ _
    constructor
    · exact Or.inl
    · rintro (h | ⟨v, d, rfl, hd, hdm, hnot⟩)
      · exact h
      · exact absurd (bfsInv_terminal adj maxD s k V R inv v d hd hdm) (hnot d)
  | succ fuel ih =>
    intro k A B V R inv hfuel x
    have main_pop : ∀ (k2 : ℕ) (c : String) (A' B2 : List (String × ℕ)),
        BfsInv adj maxD s k2 ((c, k2) :: A') B2 V R →
        (((c, k2) :: A') ++ B2).length + 2 * ((allTargets adj) \ V.toFinset).card ≤ fuel + 1 →
        (x ∈ bfsLoop adj maxD s (fuel + 1) (((c, k2) :: A') ++ B2) V R ↔
          (x ∈ R ∨ ∃ v d, x = ((s, v), d) ∧ distEq adj s v d ∧ d ≤ maxD ∧
            ∀ d2, ((s, v), d2) ∉ R)) := by
      intro k2 c A' B2 inv2 hfuel2
      have hcdist := inv2.soundQ (c, k2) (List.mem_cons_self _ _)
      have hcR : ∀ d2, ((s, c), d2) ∉ R := fun d2 hmem =>
        inv2.disj c (List.mem_map.mpr ⟨((s, c), d2), hmem, rfl⟩) (List.mem_cons_self _ _)
      have hstep : bfsLoop adj maxD s (fuel + 1) (((c, k2) :: A') ++ B2) V R
          = if maxD ≤ k2 then
              bfsLoop adj maxD s fuel (A' ++ B2) V (R ++ [((s, c), k2)])
            else
              bfsLoop adj maxD s fuel (bfsExpand adj c k2 (V, A' ++ B2)).2
                (bfsExpand adj c k2 (V, A' ++ B2)).1 (R ++ [((s, c), k2)]) := rfl
      rw [hstep]
      by_cases hk : maxD ≤ k2
      · rw [if_pos hk]
        have inv3 := bfsInv_pop_noexpand adj maxD s c k2 A' B2 V R inv2 hk
        have hfuel3 : (A' ++ B2).length + 2 * ((allTargets adj) \ V.toFinset).card ≤ fuel := by
          simp only [List.cons_append, List.length_cons] at hfuel2
          omega
        exact record_transfer adj maxD s c k2 R _ hcR hcdist.1 hcdist.2
          (ih k2 A' B2 V (R ++ [((s, c), k2)]) inv3 hfuel3) x
      · rw [if_neg hk]
        have hklt : k2 < maxD := Nat.lt_of_not_le hk
        obtain ⟨new, he1, he2, he3, he4⟩ := expand_spec k2 (alGet adj c) V (A' ++ B2)
        have hst2 : (bfsExpand adj c k2 (V, A' ++ B2)).2
            = (A' ++ B2) ++ new.map (fun n => (n, k2 + 1)) := he1
        have hst1 : ∀ y, y ∈ (bfsExpand adj c k2 (V, A' ++ B2)).1 ↔
            y ∈ V ∨ y ∈ alGet adj c := he2
        have inv3 := bfsInv_pop_expand adj maxD s c k2 A' B2 V
          (bfsExpand adj c k2 (V, A' ++ B2)).1 R new inv2 hklt he3 he4 hst1
        have hq : (bfsExpand adj c k2 (V, A' ++ B2)).2
            = A' ++ (B2 ++ new.map (fun n => (n, k2 + 1))) := by
          rw [hst2, List.append_assoc]
        rw [hq]
        have hsub : new.toFinset ⊆ (allTargets adj) \ V.toFinset := by
          intro n hn
          rw [List.mem_toFinset] at hn
          obtain ⟨hnL, hnV⟩ := (he4 n).mp hn
          rw [Finset.mem_sdiff, List.mem_toFinset]
          exact ⟨mem_allTargets adj c n hnL, hnV⟩
        have hVset : (bfsExpand adj c k2 (V, A' ++ B2)).1.toFinset
            = V.toFinset ∪ new.toFinset := by
          ext y
          simp only [List.mem_toFinset, Finset.mem_union]
          rw [hst1 y]
          constructor
          · rintro (h | h)
            · exact Or.inl h
            · by_cases hv : y ∈ V
              · exact Or.inl hv
              · exact Or.inr ((he4 y).mpr ⟨h, hv⟩)
          · rintro (h | h)
            · exact Or.inl h
            · exact Or.inr ((he4 y).mp h).1
        have hdisj : Disjoint ((allTargets adj) \ (V.toFinset ∪ new.toFinset)) new.toFinset := by
          rw [Finset.disjoint_left]
          intro a ha hb
          rw [Finset.mem_sdiff, Finset.mem_union] at ha
          exact ha.2 (Or.inr hb)
        have hle : ((allTargets adj) \ (V.toFinset ∪ new.toFinset)).card + new.toFinset.card
            ≤ ((allTargets adj) \ V.toFinset).card := by
          rw [← Finset.card_union_of_disjoint hdisj]
          refine Finset.card_le_card ?_
          intro a ha
          rw [Finset.mem_union] at ha
          rcases ha with ha | ha
          · rw [Finset.mem_sdiff, Finset.mem_union] at ha
            rw [Finset.mem_sdiff]
            exact ⟨ha.1, fun hv => ha.2 (Or.inl hv)⟩
          · exact hsub ha
        have hcardnew : new.toFinset.card = new.length := List.toFinset_card_of_nodup he3
        have hfuel3 : (A' ++ (B2 ++ new.map (fun n => (n, k2 + 1)))).length
            + 2 * ((allTargets adj) \ (bfsExpand adj c k2 (V, A' ++ B2)).1.toFinset).card
            ≤ fuel := by
          rw [hVset]
          simp only [List.cons_append, List.length_cons, List.length_append,
            List.length_map] at hfuel2 ⊢
          omega
        exact record_transfer adj maxD s c k2 R _ hcR hcdist.1 hcdist.2
          (ih k2 A' (B2 ++ new.map (fun n => (n, k2 + 1)))
            (bfsExpand adj c k2 (V, A' ++ B2)).1 (R ++ [((s, c), k2)]) inv3 hfuel3) x
    cases A with
    | nil =>
      cases B with
      | nil =>
        show x ∈ R ↔ _
        constructor
        · exact Or.inl
        · rintro (h | ⟨v, d, rfl, hd, hdm, hnot⟩)
          · exact h
          · exact absurd (bfsInv_terminal adj maxD s k V R inv v d hd hdm) (hnot d)
      | cons b B' =>
        obtain ⟨c, d⟩ := b
        have hd : d = k + 1 := inv.qB (c, d) (List.mem_cons_self _ _)
        subst hd
        have inv2 := bfsInv_reindex adj maxD s k ((c, k + 1) :: B') V R inv
        have hlist : ([] : List (String × ℕ)) ++ ((c, k + 1) :: B')
            = ((c, k + 1) :: B') ++ [] := by simp
        rw [hlist]
        refine main_pop (k + 1) c B' [] inv2 ?_
        simp only [List.nil_append, List.cons_append, List.length_cons,
          List.length_append, List.length_nil] at hfuel ⊢
        omega
    | cons a A' =>
      obtain ⟨c, d⟩ := a
      have hd : d = k := inv.qA (c, d) (List.mem_cons_self _ _)
      subst hd
      exact main_pop _ c A' B inv hfuel

theorem bfs_run_char (adj : List (String × List String)) (maxD : ℕ) (s : String) :
    ∀ x, x ∈ bfsLoop adj maxD s (bfsFuel adj) [(s, 0)] [s] [] ↔
      ∃ v d, x = ((s, v), d) ∧ distEq adj s v d ∧ d ≤ maxD := by
  intro x
  have inv0 : BfsInv adj maxD s 0 [(s, 0)] [] [s] [] := by
    refine ⟨?_, ?_, ?_, ?_, ?_, ?_, ?_, ?_, ?_, ?_, ?_⟩
    · intro p hp
      rw [List.mem_singleton.mp hp]
    · intro p hp
      cases hp
    · intro r hr
      cases hr
    · intro y
      simp
    · exact List.nodup_nil
    · simp
    · intro v hv
      simp at hv
    · intro v d h
      cases h
    · intro p hp
      have hp2 : p = (s, 0) := by simpa using hp
      rw [hp2]
      exact ⟨distEq_self adj s, Nat.zero_le maxD⟩
    · intro y m hd hm hmm2
      have hm0 : m = 0 := Nat.le_zero.mp hm
      subst hm0
      have hy : s = y := by
        have h0 := hd.1
        rw [reachIn_zero] at h0
        exact h0
      simp [← hy]
    · intro h0 y hd
      right
      refine ⟨s, by simp, ?_⟩
      obtain ⟨u, hu, hru⟩ := (reachIn_succ_front adj s 0 y).mp hd.1
      rw [reachIn_zero] at hru
      rw [hru] at hu
      exact hu
  have hfuel0 : ([(s, 0)] ++ ([] : List (String × ℕ))).length
      + 2 * ((allTargets adj) \ [s].toFinset).card ≤ bfsFuel adj := by
    rw [bfsFuel]
    have h1 : ((allTargets adj) \ [s].toFinset).card ≤ (allTargets adj).card :=
      Finset.card_le_card Finset.sdiff_subset
    have h2 : (allTargets adj).card ≤ ((adj.map Prod.snd).flatten).length :=
      List.toFinset_card_le _
    simp only [List.length_append, List.length_cons, List.length_nil]
    omega
  have H := bfs_main adj maxD s (bfsFuel adj) 0 [(s, 0)] [] [s] [] inv0 hfuel0 x
  rw [List.append_nil] at H
  rw [H]
  constructor
  · rintro (h | ⟨v, d, h1, h2, h3, -⟩)
    · cases h
    · exact ⟨v, d, h1, h2, h3⟩
  · rintro ⟨v, d, h1, h2, h3⟩
    exact Or.inr ⟨v, d, h1, h2, h3, fun d2 h => List.not_mem_nil _ h⟩

theorem bfsLoop_append (adj : List (String × List String)) (maxD : ℕ) (s : String) :
    ∀ (fuel : ℕ) (Q : List (String × ℕ)) (V : List String)
      (acc : List ((String × String) × ℕ)),
      bfsLoop adj maxD s fuel Q V acc = acc ++ bfsLoop adj maxD s fuel Q V [] := by
  intro fuel
  induction fuel with
  | zero =>
    intro Q V acc
    simp [bfsLoop]
  | succ fuel ih =>
    intro Q V acc
    cases Q with
    | nil => simp [bfsLoop]
    | cons q Qrest =>
      obtain ⟨c, d⟩ := q
      have hstep : ∀ acc2 : List ((String × String) × ℕ),
          bfsLoop adj maxD s (fuel + 1) ((c, d) :: Qrest) V acc2
            = if maxD ≤ d then
                bfsLoop adj maxD s fuel Qrest V (acc2 ++ [((s, c), d)])
              else
                bfsLoop adj maxD s fuel (bfsExpand adj c d (V, Qrest)).2
                  (bfsExpand adj c d (V, Qrest)).1 (acc2 ++ [((s, c), d)]) :=
        fun acc2 => rfl
      rw [hstep acc, hstep []]
      by_cases hd : maxD ≤ d
      · rw [if_pos hd, if_pos hd, ih Qrest V (acc ++ [((s, c), d)]),
          ih Qrest V ([] ++ [((s, c), d)])]
        rw [List.nil_append, List.append_assoc]
      · rw [if_neg hd, if_neg hd,
          ih (bfsExpand adj c d (V, Qrest)).2 (bfsExpand adj c d (V, Qrest)).1
            (acc ++ [((s, c), d)]),
          ih (bfsExpand adj c d (V, Qrest)).2 (bfsExpand adj c d (V, Qrest)).1
            ([] ++ [((s, c), d)])]
        rw [List.nil_append, List.append_assoc]

theorem csd_foldl (spaces : List Space) (maxD : ℕ) :
    ∀ (L : List Space) (acc : List ((String × String) × ℕ)) (x : (String × String) × ℕ),
      x ∈ L.foldl (fun dists sp => bfsLoop (buildAdjacency spaces) maxD sp.id
        (bfsFuel (buildAdjacency spaces)) [(sp.id, 0)] [sp.id] dists) acc ↔
      (x ∈ acc ∨ ∃ sp ∈ L, ∃ v d, x = ((sp.id, v), d) ∧
        distEq (buildAdjacency spaces) sp.id v d ∧ d ≤ maxD) := by
  intro L
  induction L with
  | nil =>
    intro acc x
    simp
  | cons sp L ih =>
    intro acc x
    rw [List.foldl_cons, ih, bfsLoop_append (buildAdjacency spaces) maxD sp.id,
      List.mem_append]
    constructor
    · rintro ((h | h) | ⟨sp2, hsp2, v, d, h1, h2, h3⟩)
      · exact Or.inl h
      · obtain ⟨v, d, h1, h2, h3⟩ := (bfs_run_char (buildAdjacency spaces) maxD sp.id x).mp h
        exact Or.inr ⟨sp, List.mem_cons_self _ _, v, d, h1, h2, h3⟩
      · exact Or.inr ⟨sp2, List.mem_cons_of_mem _ hsp2, v, d, h1, h2, h3⟩
    · rintro (h | ⟨sp2, hsp2, v, d, h1, h2, h3⟩)
      · exact Or.inl (Or.inl h)
      · rcases List.mem_cons.mp hsp2 with rfl | hsp3
        · exact Or.inl (Or.inr
            ((bfs_run_char (buildAdjacency spaces) maxD sp2.id x).mpr ⟨v, d, h1, h2, h3⟩))
        · exact Or.inr ⟨sp2, hsp3, v, d, h1, h2, h3⟩

theorem csd_mem (spaces : List Space) (maxD : ℕ) (x : (String × String) × ℕ) :
    x ∈ calculate_space_distances spaces maxD ↔
      ∃ sp ∈ spaces, ∃ v d, x = ((sp.id, v), d) ∧
        distEq (buildAdjacency spaces) sp.id v d ∧ d ≤ maxD := by
  have h := csd_foldl spaces maxD spaces [] x
  simp only [List.not_mem_nil, false_or] at h
  exact h

theorem lookup_of_mem_unique {α β : Type} [BEq α] [LawfulBEq α] (k : α) (v : β) :
    ∀ l : List (α × β), (k, v) ∈ l → (∀ v2, (k, v2) ∈ l → v2 = v) →
      List.lookup k l = some v := by
  intro l
  induction l with
  | nil =>
    intro h
    cases h
  | cons kv rest ih =>
    obtain ⟨k1, v1⟩ := kv
    intro hmem huniq
    rw [List.lookup]
    cases hbe : (k == k1) with
    | true =>
      have hk := eq_of_beq hbe
      subst hk
      have hv : v1 = v := huniq v1 (List.mem_cons_self _ _)
      rw [hv]
    | false =>
      have hk : k ≠ k1 := fun he => by rw [he] at hbe; simp at hbe
      rcases List.mem_cons.mp hmem with h | h
      · exact absurd (congrArg Prod.fst h) hk
      · exact ih h (fun v2 hv2 => huniq v2 (List.mem_cons_of_mem _ hv2))

theorem lookup_eq_none {α β : Type} [BEq α] [LawfulBEq α] (k : α) :
    ∀ l : List (α × β), (∀ v, (k, v) ∉ l) → List.lookup k l = none := by
  intro l
  induction l with
  | nil =>
    intro h
    rfl
  | cons kv rest ih =>
    obtain ⟨k1, v1⟩ := kv
    intro h
    rw [List.lookup]
    cases hbe : (k == k1) with
    | true =>
      have hk := eq_of_beq hbe
      subst hk
      exact absurd (List.mem_cons_self _ _) (h v1)
    | false =>
      exact ih (fun v hv => h v (List.mem_cons_of_mem _ hv))

theorem csd_lookup_char (spaces : List Space) (maxD : ℕ) (a b : String) (d : ℕ)
    (h : List.lookup (a, b) (calculate_space_distances spaces maxD) = some d) :
    (∃ sa ∈ spaces, sa.id = a) ∧ distEq (buildAdjacency spaces) a b d ∧ d ≤ maxD := by
  have hmem := lookup_mem (a, b) d _ h
  obtain ⟨sp, hsp, v, d2, heq, hdist, hdm⟩ := (csd_mem spaces maxD _).mp hmem
  have ha : a = sp.id := congrArg (fun r => r.1.1) heq
  have hb : b = v := congrArg (fun r => r.1.2) heq
  have hd2 : d = d2 := congrArg Prod.snd heq
  rw [← ha, ← hb, ← hd2] at hdist
  exact ⟨⟨sp, hsp, ha.symm⟩, hdist, by rw [hd2]; exact hdm⟩

theorem csd_lookup_some (spaces : List Space) (maxD : ℕ) (sa : Space)
    (hsa : sa ∈ spaces) (b : String) (d : ℕ)
    (hd : distEq (buildAdjacency spaces) sa.id b d) (hdm : d ≤ maxD) :
    List.lookup (sa.id, b) (calculate_space_distances spaces maxD) = some d := by
  refine lookup_of_mem_unique (sa.id, b) d _
    ((csd_mem spaces maxD _).mpr ⟨sa, hsa, b, d, rfl, hd, hdm⟩) ?_
  intro v2 hv2
  obtain ⟨sp, hsp, v, d2, heq, hdist2, hdm2⟩ := (csd_mem spaces maxD _).mp hv2
  have ha : sa.id = sp.id := congrArg (fun r => r.1.1) heq
  have hb : b = v := congrArg (fun r => r.1.2) heq
  have hd2 : v2 = d2 := congrArg Prod.snd heq
  rw [← ha, ← hb, ← hd2] at hdist2
  exact distEq_unique (buildAdjacency spaces) sa.id b v2 d hdist2 hd

theorem csd_lookup_none (spaces : List Space) (maxD : ℕ) (a b : String)
    (h : ∀ d, distEq (buildAdjacency spaces) a b d → d ≤ maxD → False) :
    List.lookup (a, b) (calculate_space_distances spaces maxD) = none := by
  refine lookup_eq_none (a, b) _ ?_
  intro d hmem
  obtain ⟨sp, hsp, v, d2, heq, hdist, hdm⟩ := (csd_mem spaces maxD _).mp hmem
  have ha : a = sp.id := congrArg (fun r => r.1.1) heq
  have hb : b = v := congrArg (fun r => r.1.2) heq
  have hd2 : d = d2 := congrArg Prod.snd heq
  rw [← ha, ← hb, ← hd2] at hdist
  exact h d hdist (by rw [hd2]; exact hdm)

/-- Claim C8 amended: the distance map of `calculate_space_distances` is
symmetric on pairs of ids of spaces in the input list (a parent id that is not
itself a space in the list gets no BFS run, so symmetry can fail there, see
the counterexample); it contains the self-pair `(s, s) ↦ 0` for every space
`s` including isolated ones; it contains no distance above `max_distance`; and
on the chain R — A — B — C with bound 2 it maps `(R,R) ↦ 0`, `(R,A) ↦ 1`,
`(R,B) ↦ 2` and omits `(R,C)`. -/
theorem C8_distance_map_properties :
    (∀ (spaces : List Space) (maxD : ℕ) (a b : String),
      (∃ sa ∈ spaces, Space.id sa = a) → (∃ sb ∈ spaces, Space.id sb = b) →
      List.lookup (a, b) (calculate_space_distances spaces maxD)
        = List.lookup (b, a) (calculate_space_distances spaces maxD)) ∧
    (∀ (spaces : List Space) (maxD : ℕ), ∀ sp ∈ spaces,
      List.lookup (sp.id, sp.id) (calculate_space_distances spaces maxD) = some 0) ∧
    (∀ (spaces : List Space) (maxD : ℕ) (a b : String) (d : ℕ),
      List.lookup (a, b) (calculate_space_distances spaces maxD) = some d → d ≤ maxD) ∧
    (List.lookup ("R", "R") (calculate_space_distances [chR, chA, chB, chC] 2) = some 0 ∧
     List.lookup ("R", "A") (calculate_space_distances [chR, chA, chB, chC] 2) = some 1 ∧
     List.lookup ("R", "B") (calculate_space_distances [chR, chA, chB, chC] 2) = some 2 ∧
     List.lookup ("R", "C") (calculate_space_distances [chR, chA, chB, chC] 2) = none) := by
  refine ⟨?_, ?_, ?_, by decide⟩
  · intro spaces maxD a b ha hb
    have hsym := buildAdjacency_symm spaces
    by_cases hex : ∃ d, distEq (buildAdjacency spaces) a b d ∧ d ≤ maxD
    · obtain ⟨d, hd, hdm⟩ := hex
      obtain ⟨sa, hsa, rfl⟩ := ha
      obtain ⟨sb, hsb, rfl⟩ := hb
      rw [csd_lookup_some spaces maxD sa hsa sb.id d hd hdm,
        csd_lookup_some spaces maxD sb hsb sa.id d
          (distEq_symm (buildAdjacency spaces) hsym sa.id sb.id d hd) hdm]
    · rw [csd_lookup_none spaces maxD a b (fun d hd hdm => hex ⟨d, hd, hdm⟩),
        csd_lookup_none spaces maxD b a (fun d hd hdm =>
          hex ⟨d, distEq_symm (buildAdjacency spaces) hsym b a d hd, hdm⟩)]
  · intro spaces maxD sp hsp
    exact csd_lookup_some spaces maxD sp hsp sp.id 0
      (distEq_self (buildAdjacency spaces) sp.id) (Nat.zero_le maxD)
  · intro spaces maxD a b d h
    exact (csd_lookup_char spaces maxD a b d h).2.2

/-- Counterexample to C8 as stated (symmetry for every space set): a space
whose `parent_space_id` names no space of the list yields `(child, parent)`
without `(parent, child)`. -/
theorem C8_cex_dangling_parent_asymmetry :
    (List.lookup ("A", "P") (calculate_space_distances [spDangling] 10)).isSome = true ∧
    List.lookup ("P", "A") (calculate_space_distances [spDangling] 10) = none := by
  decide

/-- Witness for the amended C8: symmetry applied on the chain at (R, B). -/
theorem C8_distance_map_properties_witness :
    (∃ sa ∈ [chR, chA, chB, chC], Space.id sa = "R") ∧
    (∃ sb ∈ [chR, chA, chB, chC], Space.id sb = "B") ∧
    List.lookup ("R", "B") (calculate_space_distances [chR, chA, chB, chC] 2)
      = List.lookup ("B", "R") (calculate_space_distances [chR, chA, chB, chC] 2) := by
  refine ⟨⟨chR, by simp, rfl⟩, ⟨chB, by simp, rfl⟩, ?_⟩
  exact C8_distance_map_properties.1 [chR, chA, chB, chC] 2 ("R") ("B")
    ⟨chR, by simp, rfl⟩ ⟨chB, by simp, rfl⟩

end Gaia
